import Mathlib

/-!
Nebula inbound data plane: replay window and outside packet handling

A shallow embedding of `bits.go` (the replay window `Bits` with `NewBits`,
`Check`, `Update`, `maxInt64`) and of the parts of `outside.go` that the
properties below talk about, followed by the properties themselves.

Conventions of the embedding:

* `uint64` values are natural numbers below `2 ^ 64`; `+` and `-` on them are
  `add64` and `sub64`, which wrap exactly as Go does.
* `int64(x)` is `toInt64`, the two's complement reading of a `uint64`.
* A Go runtime failure (integer division by zero, index out of range, nil
  dereference) is the result `none`.
* The three `metrics.Counter` objects belong to an external library and hold an
  `int64`. The lost counter receives increments large enough to overflow it, so
  `lostCounter.Inc` is the wrapping addition `addInt64`; the duplicate and
  out-of-window counters only ever receive `Inc(1)` and are represented by the
  integer sum of these increments.
* Logging has no effect on the state and is left out.
-/

namespace Nebula

/-! ## Machine arithmetic -/

/-- Addition on `uint64`. -/
def add64 (a b : Nat) : Nat := (a + b) % 2 ^ 64

/-- Subtraction on `uint64` (operands below `2 ^ 64`). -/
def sub64 (a b : Nat) : Nat := (a + 2 ^ 64 - b) % 2 ^ 64

/-- The conversion `int64(x)` of a `uint64`. -/
def toInt64 (x : Nat) : Int := if x < 2 ^ 63 then (x : Int) else (x : Int) - 2 ^ 64

/-- The statement `lost++` on an `int64`. -/
def incInt64 (x : Int) : Int := if x + 1 < 2 ^ 63 then x + 1 else x + 1 - 2 ^ 64

/-- Addition on `int64` (operands in range): the sum, wrapped into
`[-2^63, 2^63)`. It is what `lostCounter.Inc` does to the counter. -/
def addInt64 (a b : Int) : Int :=
  if a + b < -(2 ^ 63) then a + b + 2 ^ 64
  else if 2 ^ 63 ≤ a + b then a + b - 2 ^ 64
  else a + b

/-- Go `maxInt64`. -/
def maxInt64 (a b : Int) : Int := if a > b then a else b

/-! ## bits.go -/

/-- Go `Bits`. -/
structure Bits where
  length : Nat
  current : Nat
  bits : List Bool
  firstSeen : Bool
  lostCounter : Int
  dupeCounter : Int
  outOfWindowCounter : Int
  deriving DecidableEq, Repr

/-- Go `NewBits`. -/
def NewBits (bits : Nat) : Bits :=
  { length := bits
    current := 0
    bits := List.replicate bits false
    firstSeen := false
    lostCounter := 0
    dupeCounter := 0
    outOfWindowCounter := 0 }

/-- The index expression `i % b.length`; division by zero fails. -/
def slot (b : Bits) (i : Nat) : Option Nat :=
  if b.length = 0 then none else some (i % b.length)

/-- The read `b.bits[i % b.length]`. -/
def getBit (b : Bits) (i : Nat) : Option Bool :=
  (slot b i).bind fun k => b.bits[k]?

/-- The write `b.bits[i % b.length] = v`. -/
def setBit (b : Bits) (i : Nat) (v : Bool) : Option Bits :=
  (slot b i).bind fun k =>
    if k < b.bits.length then some { b with bits := b.bits.set k v } else none

/-- Go `Bits.Check`. -/
def Check (b : Bits) (i : Nat) : Option Bool :=
  if i > b.current ∨ (i = 0 ∧ b.firstSeen = false ∧ b.current < b.length) then
    some true
  else if i > sub64 b.current b.length then
    (getBit b i).map fun v => !v
  else if i < b.length then
    (getBit b i).map fun v => !v
  else
    some false

/-- The loop `for n := ...; n < i; n++ { b.bits[n%b.length] = false }`, started
at `n` with `k` iterations left (`k` is `i - n`). -/
def clearLoop (b : Bits) (n : Nat) : Nat → Option Bits
  | 0 => some b
  | k + 1 => (setBit b n false).bind fun b1 => clearLoop b1 (n + 1) k

/-- Go `Bits.Update`: the new state and the returned boolean. -/
def Update (b : Bits) (i : Nat) : Option (Bits × Bool) :=
  if i = add64 b.current 1 then
    (if i > b.length then getBit b i else some true).bind fun seen =>
      let b1 := if i > b.length ∧ seen = false then
          { b with lostCounter := addInt64 b.lostCounter 1 } else b
      (setBit b1 i true).bind fun b2 => some ({ b2 with current := i }, true)
  else if i > b.current ∧ i < add64 b.current b.length then
    (clearLoop b (add64 b.current 1) (i - add64 b.current 1)).bind fun b1 =>
      (setBit b1 i true).bind fun b2 => some ({ b2 with current := i }, true)
  else if i ≥ add64 b.current b.length then
    let lost := maxInt64 0 (toInt64 (sub64 (sub64 i b.current) b.length))
    let lost := if b.current = 0 then incInt64 lost else lost
    let b1 := { b with bits := b.bits.map fun _ => false }
    let b2 := { b1 with lostCounter := addInt64 b1.lostCounter lost }
    (setBit b2 i true).bind fun b3 => some ({ b3 with current := i }, true)
  else if i = 0 ∧ b.firstSeen = false ∧ b.current < b.length then
    (setBit { b with firstSeen := true } i true).bind fun b1 => some (b1, true)
  else if ((b.current ≥ b.length ∧ i > sub64 b.current b.length) ∨
      (b.current < b.length ∧ i < b.length)) ∧ i ≤ b.current then
    if b.current = i then
      some ({ b with dupeCounter := b.dupeCounter + 1 }, false)
    else
      (getBit b i).bind fun seen =>
        if seen then some ({ b with dupeCounter := b.dupeCounter + 1 }, false)
        else (setBit b i true).bind fun b1 => some (b1, true)
  else
    some ({ b with outOfWindowCounter := b.outOfWindowCounter + 1 }, false)

/-- A sequence of `Update` calls: the final state and the returned booleans. -/
def runUpdates : Bits → List Nat → Option (Bits × List Bool)
  | b, [] => some (b, [])
  | b, c :: cs =>
    (Update b c).bind fun r =>
      (runUpdates r.1 cs).bind fun rs => some (rs.1, r.2 :: rs.2)

/-- The states a window of length `L` can be in: `NewBits L` followed by
`Update` calls with `uint64` arguments. `NewBits` allocates the ring with
`make([]bool, bits)`, which fails at run time unless `bits` is representable
as an `int`, so a window exists only for `L < 2 ^ 63`. -/
inductive Reachable (L : Nat) : Bits → Prop
  | init : L < 2 ^ 63 → Reachable L (NewBits L)
  | step {b b1 : Bits} {r : Bool} (c : Nat) :
      Reachable L b → c < 2 ^ 64 → Update b c = some (b1, r) → Reachable L b1

/-! ## outside.go

Types and collaborators that `outside.go` uses but does not declare are given
here with the fields and operations the file touches. External collaborators
(the AEAD key, the allow list, the firewall, the clock) are the fields of `Env`;
calls whose only role is an effect on a collaborator are recorded as `Effect`s. -/

/-- A byte. -/
abbrev Byte := Fin 256

/-- Go `udpAddr`: the fields `IP` and `Port` that the file reads. -/
structure udpAddr where
  IP : Nat
  Port : Nat
  deriving DecidableEq, Repr

/-- The message types of the `switch header.Typ`. -/
inductive MessageType
  | message | lightHouse | test | handshake | recvError | closeTunnel
  | other (n : Nat)
  deriving DecidableEq, Repr

/-- The subtypes of a message; `testRequest` is the one the file tests for. -/
inductive MessageSubType
  | testRequest | testReply
  | other (n : Nat)
  deriving DecidableEq, Repr

/-- Go `Header`: the fields that the file reads (`Typ` is the field `Type`). -/
structure Header where
  Typ : MessageType
  Subtype : MessageSubType
  RemoteIndex : Nat
  MessageCounter : Nat
  deriving DecidableEq, Repr

/-- Go `FirewallPacket`: the fields that `newPacket` fills. -/
structure FirewallPacket where
  LocalIP : Nat
  RemoteIP : Nat
  LocalPort : Nat
  RemotePort : Nat
  Protocol : Nat
  Fragment : Bool
  deriving DecidableEq, Repr

/-- Go `ConnectionState`: the decryption key (an opaque identifier) and the
replay window. -/
structure ConnectionState where
  dKey : Nat
  window : Bits
  deriving DecidableEq, Repr

/-- Go `HostInfo`: the fields that the file reads or writes. `lastRoam` is
`none` for the zero time and otherwise an instant in nanoseconds; a nil pointer
is `none`. -/
structure HostInfo where
  localIndexId : Nat
  remoteIndexId : Nat
  hostId : Nat
  remote : Option udpAddr
  lastRoam : Option Int
  lastRoamRemote : Option udpAddr
  ConnectionState : Option ConnectionState
  deriving DecidableEq, Repr

/-- Calls into collaborators outside the file, in the order they are made. -/
inductive Effect
  | messageRx (t : MessageType) (st : MessageSubType)
  | sendRecvError (endpoint : udpAddr) (index : Nat)
  | connectionManagerIn (hostId : Nat)
  | writeRaw (out : List Byte)
  | lighthouseHandleRequest (addr : udpAddr) (hostId : Nat) (d : List Byte)
  | lighthouseAddRemote (hostId : Nat) (addr : udpAddr)
  | sendTestReply (hostId : Nat) (remote : Option udpAddr) (d : List Byte)
  | handleIncomingHandshake (addr : udpAddr) (packet : List Byte)
  | clearTunnelState (hostId : Nat)
  deriving DecidableEq, Repr

/-- The collaborators of the file whose answers it branches on. -/
structure Env where
  /-- The call `dKey.DecryptDanger(out, aad, ciphertext, counter, nb)` on key,
  associated data, ciphertext and counter: the plaintext, or `none` when
  authentication fails. -/
  DecryptDanger : Nat → List Byte → List Byte → Nat → Option (List Byte)
  /-- The call `f.lightHouse.remoteAllowList.Allow(udp2ipInt(addr))`. -/
  Allow : udpAddr → Bool
  /-- The test `f.firewall.Drop(...) != nil`. -/
  Drop : List Byte → FirewallPacket → Bool
  /-- The call `hostinfo.RecvErrorExceeded()`. -/
  RecvErrorExceeded : HostInfo → Bool
  /-- The instant `time.Now()`, in nanoseconds. -/
  now : Int
  /-- The constant `RoamingSupressSeconds`. -/
  RoamingSupressSeconds : Int
  /-- The flag `f.lightHouse.amLighthouse`. -/
  amLighthouse : Bool

/-- Go `Interface`: the host map, the pending host map of the handshake manager,
and the calls made so far to the other collaborators. -/
structure Interface where
  hostMap : List HostInfo
  pendingHostMap : List HostInfo
  effects : List Effect
  deriving DecidableEq, Repr

/-- The constant `ipv4.HeaderLen` of `golang.org/x/net/ipv4`. -/
def ipv4HeaderLen : Nat := 20

/-- Go `minFwPacketLen`. -/
def minFwPacketLen : Nat := 4

/-- Modelled from the spec: the constant `fwProtoICMP` is not in the source; it
is the IP protocol number of ICMP. -/
def fwProtoICMP : Nat := 1

/-- Modelled from the spec: the constant `HeaderLen` is not in the source; the
outer header is 16 bytes, fixed. -/
def HeaderLen : Nat := 16

/-- Modelled from the spec: the host map is not in the source; `QueryIndex`
resolves an index to the session that carries it. -/
def QueryIndex (hm : List HostInfo) (index : Nat) : Option HostInfo :=
  hm.find? fun h => h.localIndexId = index

/-- Modelled from the spec: the host map is not in the source;
`QueryReverseIndex` resolves a reverse index to the session that carries it. -/
def QueryReverseIndex (hm : List HostInfo) (index : Nat) : Option HostInfo :=
  hm.find? fun h => h.remoteIndexId = index

/-- Modelled from the spec: the host map is not in the source; `DeleteHostInfo`
removes the session from the map. -/
def DeleteHostInfo (hm : List HostInfo) (hostinfo : HostInfo) : List HostInfo :=
  hm.filter fun h => h.localIndexId ≠ hostinfo.localIndexId

/-- A write through the `*HostInfo` pointer, seen from the host map: the entry of
the same session takes the new value. -/
def storeHostInfo (hm : List HostInfo) (hostinfo : HostInfo) : List HostInfo :=
  hm.map fun h => if h.localIndexId = hostinfo.localIndexId then hostinfo else h

/-- Modelled from the spec: `hostDidRoam` is not in the source; the datagram
source differs from the session's stored remote. -/
def hostDidRoam (remote : Option udpAddr) (addr : udpAddr) : Bool :=
  decide (remote ≠ some addr)

/-- Modelled from the spec: `udpAddr.Equals` is not in the source; the address
equals the other one, which may be nil. -/
def udpAddr.Equals (addr : udpAddr) (other : Option udpAddr) : Bool :=
  decide (other = some addr)

/-- Modelled from the spec: `udpAddr.String` is not in the source; the test
`a.String() != b.String()` is that the two addresses do not match. -/
def stringsDiffer (a b : udpAddr) : Bool := decide (a ≠ b)

/-- The conversion `time.Second`, in nanoseconds. -/
def timeSecond : Int := 1000000000

/-- Go `binary.BigEndian.Uint16(data[lo:lo+2])`. -/
def uint16At (data : List Byte) (lo : Nat) : Option Nat :=
  (data[lo]?).bind fun a => (data[lo + 1]?).bind fun b => some (a.val * 256 + b.val)

/-- Go `binary.BigEndian.Uint32(data[lo:lo+4])`. -/
def uint32At (data : List Byte) (lo : Nat) : Option Nat :=
  (uint16At data lo).bind fun a => (uint16At data (lo + 2)).bind fun b => some (a * 65536 + b)

/-- The errors `newPacket` returns, with the values it formats. -/
inductive PacketError
  | tooShort (min : Nat)
  | notIPv4 (version : Nat)
  | invalidHeaderLength (ihl : Nat)
  | tooShortForHeader (minLen ihl : Nat)
  deriving DecidableEq, Repr

/-- Go `newPacket`: the packet `fp` as left by the call and the returned error
(`none` for nil). -/
def newPacket (data : List Byte) (incoming : Bool) (fp : FirewallPacket) :
    Option (FirewallPacket × Option PacketError) :=
  if data.length < ipv4HeaderLen then
    some (fp, some (.tooShort ipv4HeaderLen))
  else
    (data[0]?).bind fun d0 =>
    if (d0.val >>> 4) &&& 0x0f ≠ 4 then
      some (fp, some (.notIPv4 ((d0.val >>> 4) &&& 0x0f)))
    else
      let ihl := (d0.val &&& 0x0f) <<< 2
      if ihl < ipv4HeaderLen then
        some (fp, some (.invalidHeaderLength ihl))
      else
        (uint16At data 6).bind fun flagsfrags =>
        let fp1 := { fp with Fragment := decide (flagsfrags &&& 0x1FFF ≠ 0) }
        (data[9]?).bind fun proto =>
        let fp2 := { fp1 with Protocol := proto.val }
        let minLen :=
          if fp2.Fragment = false ∧ fp2.Protocol ≠ fwProtoICMP then ihl + minFwPacketLen
          else ihl
        if data.length < minLen then
          some (fp2, some (.tooShortForHeader minLen ihl))
        else
          (uint32At data 12).bind fun src =>
          (uint32At data 16).bind fun dst =>
          (if fp2.Fragment = true ∨ fp2.Protocol = fwProtoICMP then some (0, 0)
           else (uint16At data ihl).bind fun p1 =>
             (uint16At data (ihl + 2)).bind fun p2 => some (p1, p2)).bind fun ports =>
          if incoming then
            some ({ fp2 with
              RemoteIP := src, LocalIP := dst
              RemotePort := ports.1, LocalPort := ports.2 }, none)
          else
            some ({ fp2 with
              LocalIP := src, RemoteIP := dst
              LocalPort := ports.1, RemotePort := ports.2 }, none)

/-- Go `Interface.handleEncrypted`: the returned boolean and the recv error
sent, if any. -/
def handleEncrypted (ci : Option ConnectionState) (addr : udpAddr) (header : Header) :
    Option (Bool × List Effect) :=
  match ci with
  | none => some (false, [.sendRecvError addr header.RemoteIndex])
  | some cs =>
    (Check cs.window header.MessageCounter).bind fun ok =>
      if ok then some (true, []) else some (false, [.sendRecvError addr header.RemoteIndex])

/-- The errors `decrypt` returns. -/
inductive DecryptError
  | aead
  | outOfWindow
  deriving DecidableEq, Repr

/-- Go `Interface.decrypt`: the session as left by the call and the plaintext or
the error. -/
def decrypt (env : Env) (hostinfo : HostInfo) (mc : Nat) (packet : List Byte) :
    Option (HostInfo × Except DecryptError (List Byte)) :=
  match hostinfo.ConnectionState with
  | none => none
  | some cs =>
    if packet.length < HeaderLen then none
    else
      match env.DecryptDanger cs.dKey (packet.take HeaderLen) (packet.drop HeaderLen) mc with
      | none => some (hostinfo, .error .aead)
      | some out =>
        (Update cs.window mc).bind fun r =>
          let hostinfo1 := { hostinfo with ConnectionState := some { cs with window := r.1 } }
          if r.2 then some (hostinfo1, .ok out) else some (hostinfo1, .error .outOfWindow)

/-- Go `Interface.decryptToTun`: the session and the firewall packet as left by
the call, and the calls made to the connection manager and the tun device. -/
def decryptToTun (env : Env) (hostinfo : HostInfo) (messageCounter : Nat)
    (packet : List Byte) (fwPacket : FirewallPacket) :
    Option (HostInfo × FirewallPacket × List Effect) :=
  match hostinfo.ConnectionState with
  | none => none
  | some cs =>
    if packet.length < HeaderLen then none
    else
      match env.DecryptDanger cs.dKey (packet.take HeaderLen) (packet.drop HeaderLen)
          messageCounter with
      | none => some (hostinfo, fwPacket, [])
      | some out =>
        (newPacket out true fwPacket).bind fun p =>
          match p.2 with
          | some _ => some (hostinfo, p.1, [])
          | none =>
            (Update cs.window messageCounter).bind fun r =>
              let hostinfo1 :=
                { hostinfo with ConnectionState := some { cs with window := r.1 } }
              if r.2 = false then some (hostinfo1, p.1, [])
              else if env.Drop out p.1 then some (hostinfo1, p.1, [])
              else some (hostinfo1, p.1,
                [.connectionManagerIn hostinfo1.hostId, .writeRaw out])

/-- Go `Interface.handleHostRoaming`: the session as left by the call and the
call made to the lighthouse, if any. -/
def handleHostRoaming (env : Env) (hostinfo : HostInfo) (addr : udpAddr) :
    Option (HostInfo × List Effect) :=
  if hostDidRoam hostinfo.remote addr then
    if env.Allow addr = false then some (hostinfo, [])
    else
      match hostinfo.lastRoam with
      | some t =>
        if addr.Equals hostinfo.lastRoamRemote = true ∧
            env.now - t < env.RoamingSupressSeconds * timeSecond then
          (hostinfo.remote).bind fun _ => some (hostinfo, [])
        else
          (hostinfo.remote).bind fun old =>
            some ({ hostinfo with
                lastRoam := some env.now, lastRoamRemote := some old, remote := some addr },
              if env.amLighthouse then [.lighthouseAddRemote hostinfo.hostId addr] else [])
      | none =>
        (hostinfo.remote).bind fun old =>
          some ({ hostinfo with
              lastRoam := some env.now, lastRoamRemote := some old, remote := some addr },
            if env.amLighthouse then [.lighthouseAddRemote hostinfo.hostId addr] else [])
  else some (hostinfo, [])

/-- Go `Interface.closeTunnel`. -/
def closeTunnel (f : Interface) (hostInfo : HostInfo) : Interface :=
  { f with
    hostMap := DeleteHostInfo f.hostMap hostInfo
    effects := f.effects ++ [.clearTunnelState hostInfo.hostId] }

/-- Go `Interface.handleRecvError`: the interface as left by the call, and the
session the reverse index resolved to, as left by the call. -/
def handleRecvError (env : Env) (f : Interface) (addr : udpAddr) (h : Header) :
    Interface × Option HostInfo :=
  match QueryReverseIndex f.hostMap h.RemoteIndex with
  | none => (f, none)
  | some hostinfo =>
    if env.RecvErrorExceeded hostinfo = false then (f, some hostinfo)
    else
      match hostinfo.remote with
      | some remote =>
        if stringsDiffer remote addr then (f, some hostinfo)
        else
          ({ f with
              hostMap := DeleteHostInfo f.hostMap hostinfo
              pendingHostMap := DeleteHostInfo f.pendingHostMap hostinfo },
            some { hostinfo with ConnectionState := none })
      | none =>
        ({ f with
            hostMap := DeleteHostInfo f.hostMap hostinfo
            pendingHostMap := DeleteHostInfo f.pendingHostMap hostinfo },
          some { hostinfo with ConnectionState := none })

/-- The fall-through at the bottom of `readOutsidePackets`: roaming, then the
connection manager. -/
def recordIncoming (env : Env) (f : Interface) (hostinfo : HostInfo) (addr : udpAddr)
    (fwPacket : FirewallPacket) : Option (Interface × FirewallPacket) :=
  (handleHostRoaming env hostinfo addr).bind fun r =>
    some ({ f with
        hostMap := storeHostInfo f.hostMap r.1
        effects := f.effects ++ r.2 ++ [.connectionManagerIn r.1.hostId] }, fwPacket)

/-- Go `Interface.readOutsidePackets`, given the result `parsed` of
`header.Parse(packet)` (`none` for an error): the interface and the firewall
packet as left by the call. -/
def readOutsidePackets (env : Env) (f : Interface) (addr : udpAddr) (packet : List Byte)
    (parsed : Option Header) (fwPacket : FirewallPacket) :
    Option (Interface × FirewallPacket) :=
  match parsed with
  | none => some (f, fwPacket)
  | some header =>
    let found := QueryIndex f.hostMap header.RemoteIndex
    let ci := found.bind fun h => h.ConnectionState
    match header.Typ with
    | .message =>
      (handleEncrypted ci addr header).bind fun g =>
        if g.1 = false then some ({ f with effects := f.effects ++ g.2 }, fwPacket)
        else
          found.bind fun hostinfo =>
          (decryptToTun env hostinfo header.MessageCounter packet fwPacket).bind fun d =>
            recordIncoming env { f with effects := f.effects ++ d.2.2 } d.1 addr d.2.1
    | .lightHouse =>
      let f1 := { f with effects := f.effects ++ [Effect.messageRx header.Typ header.Subtype] }
      (handleEncrypted ci addr header).bind fun g =>
        if g.1 = false then some ({ f1 with effects := f1.effects ++ g.2 }, fwPacket)
        else
          found.bind fun hostinfo =>
          (decrypt env hostinfo header.MessageCounter packet).bind fun d =>
            match d.2 with
            | .error _ => some ({ f1 with hostMap := storeHostInfo f1.hostMap d.1 }, fwPacket)
            | .ok out =>
              recordIncoming env
                { f1 with
                  effects := f1.effects ++ [.lighthouseHandleRequest addr d.1.hostId out] }
                d.1 addr fwPacket
    | .test =>
      let f1 := { f with effects := f.effects ++ [Effect.messageRx header.Typ header.Subtype] }
      (handleEncrypted ci addr header).bind fun g =>
        if g.1 = false then some ({ f1 with effects := f1.effects ++ g.2 }, fwPacket)
        else
          found.bind fun hostinfo =>
          (decrypt env hostinfo header.MessageCounter packet).bind fun d =>
            match d.2 with
            | .error _ => some ({ f1 with hostMap := storeHostInfo f1.hostMap d.1 }, fwPacket)
            | .ok out =>
              if header.Subtype = .testRequest then
                (handleHostRoaming env d.1 addr).bind fun r =>
                  recordIncoming env
                    { f1 with
                      effects := f1.effects ++ r.2 ++ [.sendTestReply r.1.hostId r.1.remote out] }
                    r.1 addr fwPacket
              else recordIncoming env f1 d.1 addr fwPacket
    | .handshake =>
      some ({ f with
        effects := f.effects ++
          [Effect.messageRx header.Typ header.Subtype, .handleIncomingHandshake addr packet] },
        fwPacket)
    | .recvError =>
      let f1 := { f with effects := f.effects ++ [Effect.messageRx header.Typ header.Subtype] }
      some ((handleRecvError env f1 addr header).1, fwPacket)
    | .closeTunnel =>
      let f1 := { f with effects := f.effects ++ [Effect.messageRx header.Typ header.Subtype] }
      (handleEncrypted ci addr header).bind fun g =>
        if g.1 = false then some ({ f1 with effects := f1.effects ++ g.2 }, fwPacket)
        else found.bind fun hostinfo => some (closeTunnel f1 hostinfo, fwPacket)
    | .other _ =>
      some ({ f with effects := f.effects ++ [Effect.messageRx header.Typ header.Subtype] },
        fwPacket)

/-! ## Vocabulary of the properties -/

/-- The value stored in ring slot `k` (`false` outside the ring). -/
def bitAt (b : Bits) (k : Nat) : Bool := (b.bits[k]?).getD false

/-- The ring after the clearing loop of `Update`, as a list. -/
def clearBits (l : List Bool) (L n : Nat) : Nat → List Bool
  | 0 => l
  | k + 1 => clearBits (l.set (n % L) false) L (n + 1) k

/-- Well-formed window of length `L`: the ring has `L` slots and `L` is positive. -/
structure WF (L : Nat) (b : Bits) : Prop where
  len : b.length = L
  blen : b.bits.length = L
  pos : 0 < L

/-- Invariant of the window, relative to the set `A` of counters admitted so far,
as long as `current + L` stays below `2 ^ 64`. -/
structure Inv (L : Nat) (A : Nat → Prop) (b : Bits) : Prop where
  wf : WF L b
  nowrap : b.current + L < 2 ^ 64
  adm_le : ∀ c, A c → c ≤ b.current
  adm_bit : ∀ c, A c →
    ((b.current < L ∧ c < L) ∨ (L ≤ b.current ∧ b.current < c + L)) →
    bitAt b (c % L) = true
  adm_zero : A 0 → b.firstSeen = true

/-- The window of length 16 after `Update(2^64 - 1)` on a fresh window. -/
def atMaxCounter : Bits :=
  { length := 16
    current := 2 ^ 64 - 1
    bits := List.replicate 15 false ++ [true]
    firstSeen := false
    lostCounter := 1
    dupeCounter := 0
    outOfWindowCounter := 0 }

/-- The window of length 16 after `Update(1)`, `Update(100)` on a fresh window. -/
def afterFarJump : Bits :=
  { length := 16
    current := 100
    bits := [false, false, false, false, true, false, false, false,
      false, false, false, false, false, false, false, false]
    firstSeen := false
    lostCounter := 83
    dupeCounter := 0
    outOfWindowCounter := 0 }

/-- Byte `k` of a buffer as a number (`0` beyond its end). -/
def byteAt (data : List Byte) (k : Nat) : Nat := ((data[k]?).map Fin.val).getD 0

/-- The IP version: the high nibble of `data[0]`. -/
def versionNibble (data : List Byte) : Nat := byteAt data 0 / 16

/-- The header length in 32-bit words: the low nibble of `data[0]`. -/
def IHL (data : List Byte) : Nat := byteAt data 0 % 16

/-- The 13-bit fragment offset: the low 13 bits of the big-endian word `data[6:8]`. -/
def fragmentOffset (data : List Byte) : Nat := (byteAt data 6 * 256 + byteAt data 7) % 8192

/-- Collaborators of a node whose AEAD rejects every datagram, whose allow list
permits every address, and whose clock reads 100 s. -/
def envAeadFails : Env :=
  { DecryptDanger := fun _ _ _ _ => none
    Allow := fun _ => true
    Drop := fun _ _ => false
    RecvErrorExceeded := fun _ => true
    now := 100000000000
    RoamingSupressSeconds := 30
    amLighthouse := false }

/-- A session with remote 10.0.0.1:4242 and a fresh window of length 16. -/
def sessionA : HostInfo :=
  { localIndexId := 7
    remoteIndexId := 9
    hostId := 1
    remote := some ⟨167772161, 4242⟩
    lastRoam := none
    lastRoamRemote := none
    ConnectionState := some { dKey := 0, window := NewBits 16 } }

/-- A session like `sessionA` whose remote is not set. -/
def sessionNoRemote : HostInfo := { sessionA with remote := none }

/-- An address that is not the remote of `sessionA`: 192.168.1.1:4242. -/
def otherAddr : udpAddr := ⟨3232235777, 4242⟩

/-- A datagram of 32 zero bytes. -/
def forgedDatagram : List Byte := List.replicate 32 0

/-- The parsed header of a `message` datagram for `sessionA` with counter 1. -/
def forgedHeader : Header :=
  { Typ := .message, Subtype := .other 0, RemoteIndex := 7, MessageCounter := 1 }

/-- The header of a recv-error datagram that names the session's reverse index. -/
def recvErrorHeader : Header :=
  { Typ := .recvError, Subtype := .other 0, RemoteIndex := 9, MessageCounter := 0 }

/-- A firewall packet with every field zero. -/
def emptyFirewallPacket : FirewallPacket := ⟨0, 0, 0, 0, 0, false⟩

/-- A 20-byte IPv4 buffer whose header length field says 24 bytes and whose
fragment offset is 1 (a non-first fragment), protocol UDP. -/
def shortFragment : List Byte :=
  [0x46, 0, 0, 20, 0, 0, 0, 1, 64, 17, 0, 0, 10, 0, 0, 1, 10, 0, 0, 2]

/-- The window after the in-order calls `Update(1)`, ..., `Update(k)`: `current`
is `k`, no counter has been incremented, and the slots of the counters
`1, ..., k` that are still inside the window are set. -/
structure InOrder (L k : Nat) (b : Bits) : Prop where
  wf : WF L b
  cur : b.current = k
  lost : b.lostCounter = 0
  dupe : b.dupeCounter = 0
  oow : b.outOfWindowCounter = 0
  seen : ∀ m, 1 ≤ m → m ≤ k → k < m + L → bitAt b (m % L) = true

/-- The window of length 16 after `Update(0)` on a fresh window. -/
def afterZero : Bits :=
  { NewBits 16 with firstSeen := true, bits := (NewBits 16).bits.set 0 true }

/-- The window of length 16 after `Update(1)` on a fresh window. -/
def afterOne : Bits :=
  { NewBits 16 with current := 1, bits := (NewBits 16).bits.set 1 true }

/-- The window of length 16 after `Update(2^64 - 10)` on a fresh window. -/
def nearMaxCounter : Bits :=
  { NewBits 16 with
    current := 2 ^ 64 - 10
    bits := (NewBits 16).bits.set 6 true
    lostCounter := 1 }

/-- The big-endian 16-bit word at `data[k:k+2]`. -/
def word16 (data : List Byte) (k : Nat) : Nat := byteAt data k * 256 + byteAt data (k + 1)

/-- The big-endian 32-bit word at `data[k:k+4]`. -/
def word32 (data : List Byte) (k : Nat) : Nat :=
  word16 data k * 65536 + word16 data (k + 2)

/-- The packet is a non-first fragment: its 13-bit fragment offset is non-zero. -/
def isFragment (data : List Byte) : Bool := decide (fragmentOffset data ≠ 0)

/-- The length `newPacket` asks for: the header, and 4 transport bytes unless the
packet is a non-first fragment or ICMP. -/
def minLenOf (data : List Byte) : Nat :=
  if isFragment data = false ∧ byteAt data 9 ≠ fwProtoICMP then IHL data * 4 + 4
  else IHL data * 4

/-- The source and destination ports of the tuple: zero for a non-first fragment
or ICMP, otherwise the two 16-bit words after the IP header. -/
def portsOf (data : List Byte) : Nat × Nat :=
  if isFragment data = true ∨ byteAt data 9 = fwProtoICMP then (0, 0)
  else (word16 data (IHL data * 4), word16 data (IHL data * 4 + 2))

/-- The firewall tuple of a packet as the specification describes it: for
inbound traffic the source fields are the remote ones and the destination
fields the local ones, for outbound traffic the other way round. -/
def expectedTuple (data : List Byte) (incoming : Bool) : FirewallPacket :=
  if incoming then
    { LocalIP := word32 data 16, RemoteIP := word32 data 12
      LocalPort := (portsOf data).2, RemotePort := (portsOf data).1
      Protocol := byteAt data 9, Fragment := isFragment data }
  else
    { LocalIP := word32 data 12, RemoteIP := word32 data 16
      LocalPort := (portsOf data).1, RemotePort := (portsOf data).2
      Protocol := byteAt data 9, Fragment := isFragment data }

/-- A 28-byte IPv4/UDP packet from 10.0.0.1:53 to 10.0.0.2:4242. -/
def udpPacket : List Byte :=
  [0x45, 0, 0, 28, 0, 0, 0, 0, 64, 17, 0, 0, 10, 0, 0, 1, 10, 0, 0, 2,
    0, 53, 16, 146, 0, 8, 0, 0]

/-- The address 10.0.0.1:4242, the remote of `sessionA`. -/
def firstAddr : udpAddr := ⟨167772161, 4242⟩

/-- The session of scenario S7: it roamed from `firstAddr` to `otherAddr` at the
instant 1000 s. -/
def roamedSession : HostInfo :=
  { sessionA with
    remote := some otherAddr
    lastRoam := some 1000000000000
    lastRoamRemote := some firstAddr }

/-- Collaborators of a node whose clock reads `now`, whose allow list permits
every address and whose suppression interval is 30 seconds. -/
def envAt (now : Int) : Env := { envAeadFails with now := now }

/-- The window after a jump from `current = k` to `current = c` inside one window
and some later calls for counters of the gap: `current` is still `c`, and the
slot of a gap counter is set exactly when the counter is in `S`. -/
structure GapInv (L k c : Nat) (S : Nat → Prop) (b : Bits) : Prop where
  wf : WF L b
  cur : b.current = c
  filled : ∀ m, k < m → m < c → (bitAt b (m % L) = true ↔ S m)

/-- The value is an `int64`. -/
def inInt64 (x : Int) : Prop := -(2 ^ 63) ≤ x ∧ x < 2 ^ 63

/-- The window of length 16 after `Update(2^62 + 16)` on a fresh window: the lost
counter holds `2^62 + 1`. -/
def afterHugeJump : Bits :=
  { NewBits 16 with
    current := 2 ^ 62 + 16
    bits := (NewBits 16).bits.set 0 true
    lostCounter := 2 ^ 62 + 1 }

/-! ## Basic facts about the ring -/

theorem getBit_of_wf {L : Nat} {b : Bits} (h : WF L b) (i : Nat) :
    getBit b i = some (bitAt b (i % L)) := by
  have hlt : i % L < b.bits.length := by rw [h.blen]; exact Nat.mod_lt _ h.pos
  have hne : L ≠ 0 := Nat.pos_iff_ne_zero.mp h.pos
  simp [getBit, slot, h.len, hne, bitAt, List.getElem?_eq_getElem hlt]

theorem setBit_of_wf {L : Nat} {b : Bits} (h : WF L b) (i : Nat) (v : Bool) :
    setBit b i v = some { b with bits := b.bits.set (i % L) v } := by
  have hlt : i % L < b.bits.length := by rw [h.blen]; exact Nat.mod_lt _ h.pos
  have hne : L ≠ 0 := Nat.pos_iff_ne_zero.mp h.pos
  simp [setBit, slot, h.len, hne, hlt]

theorem length_clearBits (L : Nat) (k : Nat) : ∀ (l : List Bool) (n : Nat),
    (clearBits l L n k).length = l.length := by
  induction k with
  | zero => intro l n; rfl
  | succ k ih => intro l n; simp [clearBits, ih]

theorem getElem?_clearBits_of_ne (L : Nat) (j : Nat) (k : Nat) :
    ∀ (l : List Bool) (n : Nat), (∀ m, n ≤ m → m < n + k → m % L ≠ j) →
      (clearBits l L n k)[j]? = l[j]? := by
  induction k with
  | zero => intro l n _; rfl
  | succ k ih =>
    intro l n h
    simp only [clearBits]
    rw [ih]
    · have hne : n % L ≠ j := h n (Nat.le_refl _) (by omega)
      simp [List.getElem?_set, hne]
    · intro m h1 h2
      exact h m (by omega) (by omega)

theorem clearLoop_of_wf {L : Nat} (k : Nat) : ∀ (b : Bits) (n : Nat), WF L b →
    clearLoop b n k = some { b with bits := clearBits b.bits L n k } := by
  induction k with
  | zero => intro b n _; rfl
  | succ k ih =>
    intro b n h
    have h1 : WF L { b with bits := b.bits.set (n % L) false } :=
      ⟨h.len, by simp [h.blen], h.pos⟩
    simp [clearLoop, setBit_of_wf h, ih _ _ h1, clearBits]

theorem add64_of_lt {a b : Nat} (h : a + b < 2 ^ 64) : add64 a b = a + b := by
  unfold add64; exact Nat.mod_eq_of_lt h

theorem sub64_of_le {a b : Nat} (h : b ≤ a) (ha : a < 2 ^ 64) : sub64 a b = a - b := by
  unfold sub64
  have : a + 2 ^ 64 - b = (a - b) + 2 ^ 64 := by omega
  rw [this, Nat.add_mod_right]
  exact Nat.mod_eq_of_lt (by omega)

/-- The function `Update` on a well-formed window whose `current + L` does not wrap: the six
cases of the source with the `uint64` operations resolved. -/
theorem Update_of_nowrap {L : Nat} {b : Bits} (h : WF L b)
    (hn : b.current + L < 2 ^ 64) (i : Nat) (hi : i < 2 ^ 64) :
    Update b i =
      if i = b.current + 1 then
        some ({ b with
          lostCounter :=
            if L < i ∧ bitAt b (i % L) = false then addInt64 b.lostCounter 1
            else b.lostCounter
          bits := b.bits.set (i % L) true
          current := i }, true)
      else if b.current < i ∧ i < b.current + L then
        some ({ b with
          bits := (clearBits b.bits L (b.current + 1) (i - (b.current + 1))).set (i % L) true
          current := i }, true)
      else if b.current + L ≤ i then
        some ({ b with
          bits := (b.bits.map fun _ => false).set (i % L) true
          lostCounter := addInt64 b.lostCounter
            (if b.current = 0 then incInt64 (maxInt64 0 (toInt64 (i - b.current - L)))
             else maxInt64 0 (toInt64 (i - b.current - L)))
          current := i }, true)
      else if i = 0 ∧ b.firstSeen = false ∧ b.current < L then
        some ({ b with firstSeen := true, bits := b.bits.set (i % L) true }, true)
      else if ((L ≤ b.current ∧ b.current < i + L) ∨ (b.current < L ∧ i < L)) ∧
          i ≤ b.current then
        if b.current = i ∨ bitAt b (i % L) = true then
          some ({ b with dupeCounter := b.dupeCounter + 1 }, false)
        else some ({ b with bits := b.bits.set (i % L) true }, true)
      else some ({ b with outOfWindowCounter := b.outOfWindowCounter + 1 }, false) := by
  obtain ⟨len, cur, bits, fs, lc, dc, oc⟩ := b
  have hlen : len = L := h.len
  subst hlen
  have hblen : bits.length = len := h.blen
  have hpos : 0 < len := h.pos
  simp only at hn
  have h1 : add64 cur 1 = cur + 1 := add64_of_lt (by omega)
  have hL : add64 cur len = cur + len := add64_of_lt hn
  have hset : ∀ (bs : List Bool) (f : Bool) (l d o : Int) (c : Nat) (v : Bool),
      bs.length = len →
      setBit ⟨len, c, bs, f, l, d, o⟩ i v = some ⟨len, c, bs.set (i % len) v, f, l, d, o⟩ :=
    fun bs f l d o c v hb => setBit_of_wf (L := len) ⟨rfl, hb, hpos⟩ i v
  unfold Update
  simp only [h1, hL]
  by_cases c1 : i = cur + 1
  · rw [if_pos c1, if_pos c1]
    by_cases c1a : len < i
    · have c1g : i > len := c1a
      rw [if_pos c1g, getBit_of_wf h i]
      by_cases c1b : bitAt ⟨len, cur, bits, fs, lc, dc, oc⟩ (i % len) = false
      · simp only [Option.some_bind, c1g, c1a, c1b, and_self, if_true]
        rw [hset _ _ _ _ _ _ _ hblen]
        rfl
      · have c1b1 : bitAt ⟨len, cur, bits, fs, lc, dc, oc⟩ (i % len) = true := by
          simpa using c1b
        simp only [Option.some_bind, c1g, c1a, c1b1, Bool.true_eq_false, and_false, if_false]
        rw [hset _ _ _ _ _ _ _ hblen]
        rfl
    · have c1g : ¬ i > len := c1a
      rw [if_neg c1g]
      simp only [Option.some_bind, c1g, c1a, false_and, if_false]
      rw [hset _ _ _ _ _ _ _ hblen]
      rfl
  rw [if_neg c1, if_neg c1]
  by_cases c2 : cur < i ∧ i < cur + len
  · have c2g : i > cur ∧ i < cur + len := c2
    rw [if_pos c2g, if_pos c2, clearLoop_of_wf _ _ _ h]
    simp only [Option.some_bind]
    rw [hset _ _ _ _ _ _ _ (by rw [length_clearBits, hblen])]
    rfl
  have c2g : ¬ (i > cur ∧ i < cur + len) := c2
  rw [if_neg c2g, if_neg c2]
  by_cases c3 : cur + len ≤ i
  · have c3g : i ≥ cur + len := c3
    rw [if_pos c3g, if_pos c3]
    have e1 : sub64 i cur = i - cur := sub64_of_le (by omega) hi
    have e2 : sub64 (i - cur) len = i - cur - len := sub64_of_le (by omega) (by omega)
    rw [e1, e2]
    rw [hset _ _ _ _ _ _ _ (by rw [List.length_map, hblen])]
    rfl
  have c3g : ¬ (i ≥ cur + len) := c3
  rw [if_neg c3g, if_neg c3]
  by_cases c4 : i = 0 ∧ fs = false ∧ cur < len
  · rw [if_pos c4, if_pos c4, hset _ _ _ _ _ _ _ hblen]
    rfl
  rw [if_neg c4, if_neg c4]
  have hcur : cur < 2 ^ 64 := by omega
  have e5 : (((cur ≥ len ∧ i > sub64 cur len) ∨ (cur < len ∧ i < len)) ∧ i ≤ cur) ↔
      (((len ≤ cur ∧ cur < i + len) ∨ (cur < len ∧ i < len)) ∧ i ≤ cur) := by
    constructor
    · rintro ⟨h5 | h5, h6⟩
      · have := sub64_of_le h5.1 hcur
        exact ⟨Or.inl ⟨h5.1, by omega⟩, h6⟩
      · exact ⟨Or.inr h5, h6⟩
    · rintro ⟨h5 | h5, h6⟩
      · have := sub64_of_le h5.1 hcur
        exact ⟨Or.inl ⟨h5.1, by omega⟩, h6⟩
      · exact ⟨Or.inr h5, h6⟩
  by_cases c5 : ((len ≤ cur ∧ cur < i + len) ∨ (cur < len ∧ i < len)) ∧ i ≤ cur
  · rw [if_pos (e5.mpr c5), if_pos c5]
    by_cases c5a : cur = i
    · rw [if_pos c5a, if_pos (Or.inl c5a)]
    · rw [if_neg c5a, getBit_of_wf h]
      by_cases c5b : bitAt ⟨len, cur, bits, fs, lc, dc, oc⟩ (i % len) = true
      · rw [if_pos (Or.inr c5b)]
        simp only [Option.some_bind, c5b, if_true]
      · rw [if_neg (by rintro (h7 | h7); exact c5a h7; exact c5b h7)]
        simp only [Option.some_bind, c5b]
        rw [hset _ _ _ _ _ _ _ hblen]
        rfl
  · rw [if_neg (fun hc => c5 (e5.mp hc)), if_neg c5]

theorem bitAt_mk (len cur : Nat) (bits : List Bool) (fs : Bool) (lc dc oc : Int) (k : Nat) :
    bitAt ⟨len, cur, bits, fs, lc, dc, oc⟩ k = (bits[k]?).getD false := rfl

theorem getD_set_self {l : List Bool} {k : Nat} (h : k < l.length) (v : Bool) :
    ((l.set k v)[k]?).getD false = v := by
  simp [List.getElem?_set, h]

theorem getD_set_of_ne {l : List Bool} {k j : Nat} (h : k ≠ j) (v : Bool) :
    ((l.set k v)[j]?).getD false = (l[j]?).getD false := by
  simp [List.getElem?_set, h]

theorem getD_set_true_of_true {l : List Bool} {k j : Nat}
    (h : (l[j]?).getD false = true) : ((l.set k true)[j]?).getD false = true := by
  by_cases hk : k = j
  · subst hk
    by_cases hl : k < l.length
    · exact getD_set_self hl true
    · simp [List.getElem?_eq_none (Nat.le_of_not_lt hl)] at h
  · rw [getD_set_of_ne hk]; exact h

theorem mod_ne_of_lt_of_lt {x m L : Nat} (h1 : x < m) (h2 : m < x + L) : m % L ≠ x % L := by
  intro h
  have h3 : (m - x) % L = 0 := Nat.sub_mod_eq_zero_of_mod_eq h
  have h4 : (m - x) % L = m - x := Nat.mod_eq_of_lt (by omega)
  omega

/-- One `Update` call keeps the invariant, extends the admitted set by the
counter exactly when it returns `true`, and rejects a counter admitted before. -/
theorem Update_preserves_Inv {L : Nat} {A : Nat → Prop} {b : Bits} (hI : Inv L A b)
    (c : Nat) (hc : c + L < 2 ^ 64) :
    ∃ b1 r, Update b c = some (b1, r) ∧ (A c → r = false) ∧
      Inv L (fun x => A x ∨ (r = true ∧ x = c)) b1 := by
  have hpos := hI.wf.pos
  rw [Update_of_nowrap hI.wf hI.nowrap c (by omega)]
  obtain ⟨len, cur, bits, fs, lc, dc, oc⟩ := b
  obtain ⟨⟨hlen, hblen, _⟩, hnw, hle, hbit, hzero⟩ := hI
  simp only at hlen hblen hnw hle hzero
  simp only [bitAt_mk] at hbit ⊢
  subst hlen
  have hmod : c % len < bits.length := by rw [hblen]; exact Nat.mod_lt _ hpos
  by_cases c1 : c = cur + 1
  · rw [if_pos c1]
    refine ⟨_, true, rfl, fun ha => absurd (hle c ha) (by omega), ?_⟩
    refine ⟨⟨rfl, by simp [hblen], hpos⟩, hc, ?_, ?_, ?_⟩
    · rintro x (hx | ⟨-, rfl⟩)
      · have := hle x hx; simp only; omega
      · exact Nat.le_refl _
    · rintro x (hx | ⟨-, rfl⟩) hw
      · have hx1 := hle x hx
        simp only [bitAt_mk] at hw ⊢
        exact getD_set_true_of_true (hbit x hx (by omega))
      · simp only [bitAt_mk]; exact getD_set_self hmod true
    · rintro (h0 | ⟨-, h0⟩)
      · exact hzero h0
      · omega
  rw [if_neg c1]
  by_cases c2 : cur < c ∧ c < cur + len
  · rw [if_pos c2]
    refine ⟨_, true, rfl, fun ha => absurd (hle c ha) (by omega), ?_⟩
    have hcl : (clearBits bits len (cur + 1) (c - (cur + 1))).length = len := by
      rw [length_clearBits, hblen]
    refine ⟨⟨rfl, by simp [hcl], hpos⟩, hc, ?_, ?_, ?_⟩
    · rintro x (hx | ⟨-, rfl⟩)
      · have := hle x hx; simp only; omega
      · exact Nat.le_refl _
    · rintro x (hx | ⟨-, rfl⟩) hw
      · have hx1 := hle x hx
        simp only [bitAt_mk] at hw ⊢
        apply getD_set_true_of_true
        rw [getElem?_clearBits_of_ne]
        · exact hbit x hx (by omega)
        · intro m hm1 hm2
          exact mod_ne_of_lt_of_lt (by omega) (by omega)
      · simp only [bitAt_mk]; exact getD_set_self (by rw [hcl]; exact Nat.mod_lt _ hpos) true
    · rintro (h0 | ⟨-, h0⟩)
      · exact hzero h0
      · omega
  rw [if_neg c2]
  by_cases c3 : cur + len ≤ c
  · rw [if_pos c3]
    refine ⟨_, true, rfl, fun ha => absurd (hle c ha) (by omega), ?_⟩
    refine ⟨⟨rfl, by simp [hblen], hpos⟩, hc, ?_, ?_, ?_⟩
    · rintro x (hx | ⟨-, rfl⟩)
      · have := hle x hx; simp only; omega
      · exact Nat.le_refl _
    · rintro x (hx | ⟨-, rfl⟩) hw
      · have hx1 := hle x hx
        simp only at hw
        omega
      · simp only [bitAt_mk]
        exact getD_set_self (by rw [List.length_map, hblen]; exact Nat.mod_lt _ hpos) true
    · rintro (h0 | ⟨-, h0⟩)
      · exact hzero h0
      · omega
  rw [if_neg c3]
  by_cases c4 : c = 0 ∧ fs = false ∧ cur < len
  · rw [if_pos c4]
    refine ⟨_, true, rfl, fun ha => ?_, ?_⟩
    · have h1 := hzero (c4.1 ▸ ha)
      rw [c4.2.1] at h1
      exact absurd h1 (by decide)
    refine ⟨⟨rfl, by simp [hblen], hpos⟩, hnw, ?_, ?_, ?_⟩
    · rintro x (hx | ⟨-, rfl⟩)
      · exact hle x hx
      · simp only; omega
    · rintro x (hx | ⟨-, rfl⟩) hw
      · simp only [bitAt_mk] at hw ⊢
        exact getD_set_true_of_true (hbit x hx hw)
      · simp only [bitAt_mk]; exact getD_set_self hmod true
    · intro _; rfl
  rw [if_neg c4]
  by_cases c5 : ((len ≤ cur ∧ cur < c + len) ∨ (cur < len ∧ c < len)) ∧ c ≤ cur
  · rw [if_pos c5]
    by_cases c5a : cur = c ∨ (bits[c % len]?).getD false = true
    · rw [if_pos c5a]
      refine ⟨_, false, rfl, fun _ => rfl, ⟨rfl, hblen, hpos⟩, hnw, ?_, ?_, ?_⟩
      · rintro x (hx | ⟨h1, -⟩)
        · exact hle x hx
        · exact absurd h1 (by decide)
      · rintro x (hx | ⟨h1, -⟩) hw
        · exact hbit x hx hw
        · exact absurd h1 (by decide)
      · rintro (h0 | ⟨h1, -⟩)
        · exact hzero h0
        · exact absurd h1 (by decide)
    · rw [if_neg c5a]
      refine ⟨_, true, rfl, fun ha => ?_, ?_⟩
      · exact absurd (Or.inr (hbit c ha (by omega))) c5a
      refine ⟨⟨rfl, by simp [hblen], hpos⟩, hnw, ?_, ?_, ?_⟩
      · rintro x (hx | ⟨-, rfl⟩)
        · exact hle x hx
        · exact c5.2
      · rintro x (hx | ⟨-, rfl⟩) hw
        · simp only [bitAt_mk] at hw ⊢
          exact getD_set_true_of_true (hbit x hx hw)
        · simp only [bitAt_mk]; exact getD_set_self hmod true
      · rintro (h0 | ⟨-, h0⟩)
        · exact hzero h0
        · simp only
          cases fs with
          | true => rfl
          | false => exact absurd ⟨h0.symm, rfl, by omega⟩ c4
  · rw [if_neg c5]
    refine ⟨_, false, rfl, fun _ => rfl, ⟨rfl, hblen, hpos⟩, hnw, ?_, ?_, ?_⟩
    · rintro x (hx | ⟨h1, -⟩)
      · exact hle x hx
      · exact absurd h1 (by decide)
    · rintro x (hx | ⟨h1, -⟩) hw
      · exact hbit x hx hw
      · exact absurd h1 (by decide)
    · rintro (h0 | ⟨h1, -⟩)
      · exact hzero h0
      · exact absurd h1 (by decide)

/-- On a well-formed window `Update` returns, whatever the counter, and the
window stays well-formed (wraparound included). -/
theorem Update_total {L : Nat} {b : Bits} (h : WF L b) (i : Nat) :
    ∃ b1 r, Update b i = some (b1, r) ∧ WF L b1 := by
  obtain ⟨len, cur, bits, fs, lc, dc, oc⟩ := b
  have hlen : len = L := h.len
  subst hlen
  have hblen : bits.length = len := h.blen
  have hpos : 0 < len := h.pos
  have hset : ∀ (bs : List Bool) (f : Bool) (l d o : Int) (c : Nat) (v : Bool),
      bs.length = len →
      setBit ⟨len, c, bs, f, l, d, o⟩ i v = some ⟨len, c, bs.set (i % len) v, f, l, d, o⟩ :=
    fun bs f l d o c v hb => setBit_of_wf (L := len) ⟨rfl, hb, hpos⟩ i v
  unfold Update
  simp only
  by_cases c1 : i = add64 cur 1
  · rw [if_pos c1]
    by_cases c1a : i > len
    · rw [if_pos c1a, getBit_of_wf h i]
      simp only [Option.some_bind]
      by_cases c1b : i > len ∧ bitAt ⟨len, cur, bits, fs, lc, dc, oc⟩ (i % len) = false
      · rw [if_pos c1b, hset _ _ _ _ _ _ _ hblen]
        exact ⟨_, _, rfl, rfl, by simp [hblen], hpos⟩
      · rw [if_neg c1b, hset _ _ _ _ _ _ _ hblen]
        exact ⟨_, _, rfl, rfl, by simp [hblen], hpos⟩
    · rw [if_neg c1a]
      simp only [Option.some_bind, c1a, false_and, if_false]
      rw [hset _ _ _ _ _ _ _ hblen]
      exact ⟨_, _, rfl, rfl, by simp [hblen], hpos⟩
  rw [if_neg c1]
  by_cases c2 : i > cur ∧ i < add64 cur len
  · rw [if_pos c2, clearLoop_of_wf _ _ _ h]
    simp only [Option.some_bind]
    rw [hset _ _ _ _ _ _ _ (by rw [length_clearBits, hblen])]
    exact ⟨_, _, rfl, rfl, by simp [length_clearBits, hblen], hpos⟩
  rw [if_neg c2]
  by_cases c3 : i ≥ add64 cur len
  · rw [if_pos c3, hset _ _ _ _ _ _ _ (by rw [List.length_map, hblen])]
    exact ⟨_, _, rfl, rfl, by simp [hblen], hpos⟩
  rw [if_neg c3]
  by_cases c4 : i = 0 ∧ fs = false ∧ cur < len
  · rw [if_pos c4, hset _ _ _ _ _ _ _ hblen]
    exact ⟨_, _, rfl, rfl, by simp [hblen], hpos⟩
  rw [if_neg c4]
  by_cases c5 : ((cur ≥ len ∧ i > sub64 cur len) ∨ (cur < len ∧ i < len)) ∧ i ≤ cur
  · rw [if_pos c5]
    by_cases c5a : cur = i
    · rw [if_pos c5a]
      exact ⟨_, _, rfl, rfl, hblen, hpos⟩
    · rw [if_neg c5a, getBit_of_wf h i]
      simp only [Option.some_bind]
      by_cases c5b : bitAt ⟨len, cur, bits, fs, lc, dc, oc⟩ (i % len) = true
      · rw [if_pos c5b]
        exact ⟨_, _, rfl, rfl, hblen, hpos⟩
      · rw [if_neg c5b, hset _ _ _ _ _ _ _ hblen]
        exact ⟨_, _, rfl, rfl, by simp [hblen], hpos⟩
  · rw [if_neg c5]
    exact ⟨_, _, rfl, rfl, hblen, hpos⟩

theorem NewBits_wf {L : Nat} (hL : 0 < L) : WF L (NewBits L) :=
  ⟨rfl, by simp [NewBits], hL⟩

theorem wf_of_reachable {L : Nat} {b : Bits} (hL : 0 < L) (h : Reachable L b) : WF L b := by
  induction h with
  | init _ => exact NewBits_wf hL
  | step c _ _ hu ih =>
    obtain ⟨b2, r2, h2, hw⟩ := Update_total ih c
    rw [h2] at hu
    cases hu
    exact hw

theorem NewBits_inv {L : Nat} (hL : 0 < L) (h64 : L < 2 ^ 64) :
    Inv L (fun _ => False) (NewBits L) :=
  ⟨NewBits_wf hL, by simp [NewBits]; exact h64, fun _ h => h.elim, fun _ h => h.elim,
    fun h => h.elim⟩

/-- A run of `Update` calls from a state satisfying the invariant returns, and
admits every counter at most once and no counter admitted before the run. -/
theorem runUpdates_admits_once {L : Nat} (cs : List Nat) :
    ∀ (A : Nat → Prop) (b : Bits), Inv L A b → (∀ c ∈ cs, c + L < 2 ^ 64) →
      ∃ bf rs, runUpdates b cs = some (bf, rs) ∧ rs.length = cs.length ∧
        ∀ c, (cs.zip rs).count (c, true) ≤ 1 ∧ (A c → (cs.zip rs).count (c, true) = 0) := by
  induction cs with
  | nil => intro A b _ _; exact ⟨b, [], rfl, rfl, fun c => by simp⟩
  | cons c cs ih =>
    intro A b hI hcs
    obtain ⟨b1, r, hu, hrej, hI1⟩ :=
      Update_preserves_Inv hI c (hcs c (List.mem_cons_self _ _))
    obtain ⟨bf, rs, hrun, hlen, hcount⟩ :=
      ih _ b1 hI1 (fun x hx => hcs x (List.mem_cons_of_mem _ hx))
    refine ⟨bf, r :: rs, ?_, by simp [hlen], ?_⟩
    · simp [runUpdates, hu, hrun]
    · intro x
      rw [List.zip_cons_cons, List.count_cons]
      by_cases hx : (c, r) = (x, true)
      · have hc : c = x := congrArg Prod.fst hx
        have hr : r = true := congrArg Prod.snd hx
        subst hc
        have h0 := (hcount c).2 (Or.inr ⟨hr, rfl⟩)
        constructor
        · rw [h0]; simp [hr]
        · intro ha
          have := hrej ha
          rw [hr] at this
          exact absurd this (by decide)
      · have hne : ((c, r) == (x, true)) = false := by simpa using hx
        rw [hne]
        simp only [Bool.false_eq_true, if_false, Nat.add_zero]
        exact ⟨(hcount x).1, fun ha => (hcount x).2 (Or.inl ha)⟩

theorem reachable_of_runUpdates {L : Nat} (cs : List Nat) :
    ∀ (b0 bf : Bits) (rs : List Bool), Reachable L b0 → (∀ c ∈ cs, c < 2 ^ 64) →
      runUpdates b0 cs = some (bf, rs) → Reachable L bf := by
  induction cs with
  | nil =>
    intro b0 bf rs h0 _ hrun
    simp only [runUpdates, Option.some.injEq, Prod.mk.injEq] at hrun
    exact hrun.1 ▸ h0
  | cons c cs ih =>
    intro b0 bf rs h0 hcs hrun
    simp only [runUpdates] at hrun
    cases hu : Update b0 c with
    | none => rw [hu] at hrun; simp at hrun
    | some p =>
      obtain ⟨b1, r⟩ := p
      rw [hu] at hrun
      simp only [Option.some_bind] at hrun
      cases hr : runUpdates b1 cs with
      | none => rw [hr] at hrun; simp at hrun
      | some q =>
        obtain ⟨b2, rs2⟩ := q
        rw [hr] at hrun
        simp only [Option.some_bind, Option.some.injEq, Prod.mk.injEq] at hrun
        have h1 : Reachable L b1 := Reachable.step c h0 (hcs c (List.mem_cons_self _ _)) hu
        have h2 := ih b1 b2 rs2 h1 (fun x hx => hcs x (List.mem_cons_of_mem _ hx)) hr
        exact hrun.1 ▸ h2

theorem atMaxCounter_reachable : Reachable 16 atMaxCounter :=
  reachable_of_runUpdates [2 ^ 64 - 1] (NewBits 16) atMaxCounter [true]
    (Reachable.init (by decide))
    (by decide) (by decide)

theorem afterFarJump_reachable : Reachable 16 afterFarJump :=
  reachable_of_runUpdates [1, 100] (NewBits 16) afterFarJump [true, true]
    (Reachable.init (by decide))
    (by decide) (by decide)

/-! ## The replay window: properties -/

/-- C1, as stated, fails: on a window of length 16 the calls `Update(2^64 - 1)`,
`Update(0)`, `Update(2^64 - 1)` all return `true`, so the counter `2^64 - 1` is
admitted twice (`current + 1` wraps to `0` in the second call). -/
theorem admitted_twice_across_wraparound :
    (runUpdates (NewBits 16) [2 ^ 64 - 1, 0, 2 ^ 64 - 1]).map Prod.snd =
        some [true, true, true] ∧
      (List.zip [2 ^ 64 - 1, 0, 2 ^ 64 - 1] [true, true, true]).count (2 ^ 64 - 1, true) = 2 := by
  decide

/-- C1 (amended): for every window length `L ≥ 1` and every sequence of `Update`
calls on `NewBits L` whose counters all satisfy `c + L < 2^64`, the calls all
return, and for every counter `c` at most one of the calls with argument `c`
returns `true`. -/
theorem no_admission_twice_below_wraparound (L : Nat) (hL : 0 < L) (cs : List Nat)
    (hcs : ∀ c ∈ cs, c + L < 2 ^ 64) :
    ∃ bf rs, runUpdates (NewBits L) cs = some (bf, rs) ∧ rs.length = cs.length ∧
      ∀ c, (cs.zip rs).count (c, true) ≤ 1 := by
  cases cs with
  | nil => exact ⟨NewBits L, [], rfl, rfl, fun c => by simp⟩
  | cons c0 cs =>
    have h64 : L < 2 ^ 64 := by
      have := hcs c0 (List.mem_cons_self _ _)
      omega
    obtain ⟨bf, rs, hrun, hlen, hcount⟩ :=
      runUpdates_admits_once (c0 :: cs) _ _ (NewBits_inv hL h64) hcs
    exact ⟨bf, rs, hrun, hlen, fun c => (hcount c).1⟩

/-- C1 (amended) on the window of length 16 and the calls 5, 3, 5, 4, 0, 0. -/
theorem no_admission_twice_below_wraparound_witness :
    (0 < 16 ∧ ∀ c ∈ [5, 3, 5, 4, 0, 0], c + 16 < 2 ^ 64) ∧
      ∃ bf rs, runUpdates (NewBits 16) [5, 3, 5, 4, 0, 0] = some (bf, rs) ∧
        rs.length = [5, 3, 5, 4, 0, 0].length ∧
        ∀ c, (List.zip [5, 3, 5, 4, 0, 0] rs).count (c, true) ≤ 1 :=
  ⟨⟨by decide, by decide⟩,
    no_admission_twice_below_wraparound 16 (by decide) [5, 3, 5, 4, 0, 0] (by decide)⟩

/-- C2, at the failing input: on the window of length 16 reached by `Update(1)`,
`Update(100)` (so `current = 100 ≥ L`), `Check(3)` returns `true` although none
of the four cases (a) to (d) holds: the third test of `Check` lacks the guard
`current < length` that `Update` has. -/
theorem Check_admits_stale_first_window_counter :
    (runUpdates (NewBits 16) [1, 100]).map Prod.fst = some afterFarJump ∧
      Check afterFarJump 3 = some true ∧
      ¬ (3 > afterFarJump.current ∨
        (3 = 0 ∧ afterFarJump.firstSeen = false ∧ afterFarJump.current < 16) ∨
        (afterFarJump.current - 16 < 3 ∧ 3 ≤ afterFarJump.current ∧
          bitAt afterFarJump (3 % 16) = false) ∨
        (afterFarJump.current < 16 ∧ 3 < 16 ∧ bitAt afterFarJump (3 % 16) = false)) := by
  decide

/-- C3, as stated, fails: on the reachable window `atMaxCounter` (length 16,
`current = 2^64 - 1`) `Update(100)` returns `true` although `100 < current`,
`100` is not `0`, and `100` is outside the window (`current + length` wraps). -/
theorem Update_admits_behind_window_at_wraparound :
    (runUpdates (NewBits 16) [2 ^ 64 - 1]).map Prod.fst = some atMaxCounter ∧
      (Update atMaxCounter 100).map Prod.snd = some true ∧
      ¬ (100 > atMaxCounter.current ∨
        (100 = 0 ∧ atMaxCounter.firstSeen = false ∧ atMaxCounter.current < 16) ∨
        (100 < atMaxCounter.current ∧
          ((atMaxCounter.current ≥ 16 ∧ 100 > atMaxCounter.current - 16) ∨
            (atMaxCounter.current < 16 ∧ 100 < 16)) ∧
          bitAt atMaxCounter (100 % 16) = false)) := by
  decide

/-- C3 (amended): on every state reachable from `NewBits L`, `L ≥ 1`, with
`current + L < 2^64`, and for every counter `c`, `Update(c)` returns, and it
returns `true` if and only if `c > current`, or `c = 0` with `firstSeen` false
and `current < L`, or `c < current`, `c` lies in the valid window and
`bits[c mod L]` is false. -/
theorem Update_admits_iff_below_wraparound {L : Nat} {b : Bits} (hL : 0 < L)
    (hr : Reachable L b) (hn : b.current + L < 2 ^ 64) (c : Nat) (hc : c < 2 ^ 64) :
    ∃ b1 r, Update b c = some (b1, r) ∧
      (r = true ↔
        (c > b.current ∨
          (c = 0 ∧ b.firstSeen = false ∧ b.current < L) ∨
          (c < b.current ∧
            ((b.current ≥ L ∧ c > b.current - L) ∨ (b.current < L ∧ c < L)) ∧
            bitAt b (c % L) = false))) := by
  rw [Update_of_nowrap (wf_of_reachable hL hr) hn c hc]
  by_cases c1 : c = b.current + 1
  · rw [if_pos c1]
    exact ⟨_, true, rfl, fun _ => Or.inl (by omega), fun _ => rfl⟩
  rw [if_neg c1]
  by_cases c2 : b.current < c ∧ c < b.current + L
  · rw [if_pos c2]
    exact ⟨_, true, rfl, fun _ => Or.inl c2.1, fun _ => rfl⟩
  rw [if_neg c2]
  by_cases c3 : b.current + L ≤ c
  · rw [if_pos c3]
    exact ⟨_, true, rfl, fun _ => Or.inl (by omega), fun _ => rfl⟩
  rw [if_neg c3]
  by_cases c4 : c = 0 ∧ b.firstSeen = false ∧ b.current < L
  · rw [if_pos c4]
    exact ⟨_, true, rfl, fun _ => Or.inr (Or.inl c4), fun _ => rfl⟩
  rw [if_neg c4]
  by_cases c5 : ((L ≤ b.current ∧ b.current < c + L) ∨ (b.current < L ∧ c < L)) ∧ c ≤ b.current
  · rw [if_pos c5]
    by_cases c5a : b.current = c ∨ bitAt b (c % L) = true
    · rw [if_pos c5a]
      refine ⟨_, false, rfl, fun h => absurd h (by decide), ?_⟩
      rintro (h | h | ⟨h1, -, h3⟩)
      · omega
      · exact absurd h c4
      · rcases c5a with h5 | h5
        · omega
        · rw [h5] at h3; exact absurd h3 (by decide)
    · rw [if_neg c5a]
      refine ⟨_, true, rfl, fun _ => Or.inr (Or.inr ⟨by omega, by omega, ?_⟩), fun _ => rfl⟩
      cases hb : bitAt b (c % L) with
      | false => rfl
      | true => exact absurd (Or.inr hb) c5a
  · rw [if_neg c5]
    refine ⟨_, false, rfl, fun h => absurd h (by decide), ?_⟩
    rintro (h | h | ⟨h1, h2, -⟩)
    · omega
    · exact absurd h c4
    · exact absurd ⟨by omega, by omega⟩ c5

/-- C3 (amended) on the window after `Update(1)`, `Update(100)` and the counter 90. -/
theorem Update_admits_iff_below_wraparound_witness :
    (0 < 16 ∧ Reachable 16 afterFarJump ∧ afterFarJump.current + 16 < 2 ^ 64 ∧
        (90 : Nat) < 2 ^ 64) ∧
      ∃ b1 r, Update afterFarJump 90 = some (b1, r) ∧
        (r = true ↔
          (90 > afterFarJump.current ∨
            (90 = 0 ∧ afterFarJump.firstSeen = false ∧ afterFarJump.current < 16) ∨
            (90 < afterFarJump.current ∧
              ((afterFarJump.current ≥ 16 ∧ 90 > afterFarJump.current - 16) ∨
                (afterFarJump.current < 16 ∧ 90 < 16)) ∧
              bitAt afterFarJump (90 % 16) = false))) :=
  ⟨⟨by decide, afterFarJump_reachable, by decide, by decide⟩,
    Update_admits_iff_below_wraparound (by decide) afterFarJump_reachable (by decide) 90
      (by decide)⟩

/-- C6, as stated, fails: on the reachable window `atMaxCounter` (length 16,
`current = 2^64 - 1`) the call `Update(0)` returns `true` and leaves
`current = 0`, below its value before the call. -/
theorem current_decreases_at_wraparound :
    (runUpdates (NewBits 16) [2 ^ 64 - 1]).map Prod.fst = some atMaxCounter ∧
      atMaxCounter.current = 2 ^ 64 - 1 ∧
      (Update atMaxCounter 0).map (fun p => (p.1.current, p.2)) = some (0, true) := by
  decide

/-- C6 (amended): for every window length `L ≥ 1`, on every state reachable from
`NewBits L` with `current + L < 2^64` and for every 64-bit counter, `Update`
returns and `current` after the call is at least `current` before it. -/
theorem current_monotone_below_wraparound {L : Nat} {b : Bits} (hL : 0 < L)
    (hr : Reachable L b) (hn : b.current + L < 2 ^ 64) (c : Nat) (hc : c < 2 ^ 64) :
    ∃ b1 r, Update b c = some (b1, r) ∧ b.current ≤ b1.current := by
  rw [Update_of_nowrap (wf_of_reachable hL hr) hn c hc]
  by_cases c1 : c = b.current + 1
  · rw [if_pos c1]
    exact ⟨_, _, rfl, by simp only; omega⟩
  rw [if_neg c1]
  by_cases c2 : b.current < c ∧ c < b.current + L
  · rw [if_pos c2]
    exact ⟨_, _, rfl, by simp only; omega⟩
  rw [if_neg c2]
  by_cases c3 : b.current + L ≤ c
  · rw [if_pos c3]
    exact ⟨_, _, rfl, by simp only; omega⟩
  rw [if_neg c3]
  by_cases c4 : c = 0 ∧ b.firstSeen = false ∧ b.current < L
  · rw [if_pos c4]
    exact ⟨_, _, rfl, Nat.le_refl _⟩
  rw [if_neg c4]
  by_cases c5 : ((L ≤ b.current ∧ b.current < c + L) ∨ (b.current < L ∧ c < L)) ∧ c ≤ b.current
  · rw [if_pos c5]
    by_cases c5a : b.current = c ∨ bitAt b (c % L) = true
    · rw [if_pos c5a]
      exact ⟨_, _, rfl, Nat.le_refl _⟩
    · rw [if_neg c5a]
      exact ⟨_, _, rfl, Nat.le_refl _⟩
  · rw [if_neg c5]
    exact ⟨_, _, rfl, Nat.le_refl _⟩

/-- C6 (amended) on the window after `Update(1)`, `Update(100)` and the counter 7. -/
theorem current_monotone_below_wraparound_witness :
    (0 < 16 ∧ Reachable 16 afterFarJump ∧ afterFarJump.current + 16 < 2 ^ 64 ∧
        (7 : Nat) < 2 ^ 64) ∧
      ∃ b1 r, Update afterFarJump 7 = some (b1, r) ∧ afterFarJump.current ≤ b1.current :=
  ⟨⟨by decide, afterFarJump_reachable, by decide, by decide⟩,
    current_monotone_below_wraparound (by decide) afterFarJump_reachable (by decide) 7
      (by decide)⟩

/-- C7, as stated, fails: on the reachable window `atMaxCounter` (length 16,
`current = 2^64 - 1 ≥ L`) the counter `100 ≤ current - L` is admitted by
`Update`, which sets `current` to `100` and leaves the out-of-window counter
alone. -/
theorem stale_counter_admitted_at_wraparound :
    (runUpdates (NewBits 16) [2 ^ 64 - 1]).map Prod.fst = some atMaxCounter ∧
      atMaxCounter.current ≥ 16 ∧ 100 ≤ atMaxCounter.current - 16 ∧
      (Update atMaxCounter 100).map
          (fun p => (p.2, p.1.current, p.1.outOfWindowCounter)) =
        some (true, 100, atMaxCounter.outOfWindowCounter) := by
  decide

/-- C7 (amended): on every reachable state with `L ≤ current` and
`current + L < 2^64`, and for every counter `c ≤ current - L`, `Update(c)`
returns `false`, adds exactly 1 to the out-of-window counter and leaves
`current`, `bits`, `firstSeen` and the lost and duplicate counters unchanged. -/
theorem stale_counter_rejected_below_wraparound {L : Nat} {b : Bits} (hL : 0 < L)
    (hr : Reachable L b) (hge : L ≤ b.current) (hn : b.current + L < 2 ^ 64) (c : Nat)
    (hc : c ≤ b.current - L) :
    Update b c =
      some ({ b with outOfWindowCounter := b.outOfWindowCounter + 1 }, false) := by
  rw [Update_of_nowrap (wf_of_reachable hL hr) hn c (by omega)]
  rw [if_neg (by omega), if_neg (by omega), if_neg (by omega), if_neg (by omega),
    if_neg (by omega)]

/-- C7 (amended) on the scenario `Update(1)`, `Update(100)`, then `Update(50)`. -/
theorem stale_counter_rejected_below_wraparound_witness :
    (0 < 16 ∧ Reachable 16 afterFarJump ∧ 16 ≤ afterFarJump.current ∧
        afterFarJump.current + 16 < 2 ^ 64 ∧ 50 ≤ afterFarJump.current - 16) ∧
      Update afterFarJump 50 =
        some ({ afterFarJump with
          outOfWindowCounter := afterFarJump.outOfWindowCounter + 1 }, false) :=
  ⟨⟨by decide, afterFarJump_reachable, by decide, by decide, by decide⟩,
    stale_counter_rejected_below_wraparound (by decide) afterFarJump_reachable (by decide)
      (by decide) 50 (by decide)⟩

/-- C8, as stated, fails: on the reachable window `atMaxCounter` (length 16,
`current = 2^64 - 1`) `Check(100)` returns `false` and `Update(100)`, applied to
the same state, returns `true`. -/
theorem Check_false_Update_true_at_wraparound :
    (runUpdates (NewBits 16) [2 ^ 64 - 1]).map Prod.fst = some atMaxCounter ∧
      Check atMaxCounter 100 = some false ∧
      (Update atMaxCounter 100).map Prod.snd = some true := by
  decide

/-- C8 (amended): on every state reachable from `NewBits L`, `L ≥ 1`, with
`current + L < 2^64`, and for every 64-bit counter `c`, if `Check(c)` returns
`false` then `Update(c)` on the same state returns `false`. -/
theorem Check_false_Update_false_below_wraparound {L : Nat} {b : Bits} (hL : 0 < L)
    (hr : Reachable L b) (hn : b.current + L < 2 ^ 64) (c : Nat) (hc : c < 2 ^ 64)
    (hcheck : Check b c = some false) :
    ∃ b1, Update b c = some (b1, false) := by
  have hw := wf_of_reachable hL hr
  have hlen := hw.len
  unfold Check at hcheck
  rw [getBit_of_wf hw, hlen] at hcheck
  by_cases k1 : c > b.current ∨ (c = 0 ∧ b.firstSeen = false ∧ b.current < L)
  · rw [if_pos k1] at hcheck
    exact absurd hcheck (by decide)
  rw [if_neg k1] at hcheck
  have hle : c ≤ b.current := by
    by_contra hlt
    exact k1 (Or.inl (by omega))
  have hbit : (((L ≤ b.current ∧ b.current < c + L) ∨ (b.current < L ∧ c < L)) →
      bitAt b (c % L) = true) := by
    intro hwin
    by_cases k2 : c > sub64 b.current L
    · rw [if_pos k2] at hcheck
      simpa using hcheck
    · rw [if_neg k2] at hcheck
      have k3 : c < L := by
        rcases hwin with h | h
        · have := sub64_of_le h.1 (by omega : b.current < 2 ^ 64)
          omega
        · exact h.2
      rw [if_pos k3] at hcheck
      simpa using hcheck
  rw [Update_of_nowrap hw hn c hc]
  rw [if_neg (by omega), if_neg (by omega), if_neg (by omega),
    if_neg (fun h => k1 (Or.inr h))]
  by_cases c5 : ((L ≤ b.current ∧ b.current < c + L) ∨ (b.current < L ∧ c < L)) ∧ c ≤ b.current
  · rw [if_pos c5, if_pos (Or.inr (hbit c5.1))]
    exact ⟨_, rfl⟩
  · rw [if_neg c5]
    exact ⟨_, rfl⟩

/-- C8 (amended) on the window after `Update(1)`, `Update(100)` and the counter 100. -/
theorem Check_false_Update_false_below_wraparound_witness :
    (0 < 16 ∧ Reachable 16 afterFarJump ∧ afterFarJump.current + 16 < 2 ^ 64 ∧
        (100 : Nat) < 2 ^ 64 ∧ Check afterFarJump 100 = some false) ∧
      ∃ b1, Update afterFarJump 100 = some (b1, false) :=
  ⟨⟨by decide, afterFarJump_reachable, by decide, by decide, by decide⟩,
    Check_false_Update_false_below_wraparound (by decide) afterFarJump_reachable (by decide)
      100 (by decide) (by decide)⟩

/-! ## outside.go: properties -/

theorem getElem?_eq_some_byteAt (data : List Byte) (k : Nat) (h : k < data.length) :
    ∃ v : Byte, data[k]? = some v ∧ v.val = byteAt data k :=
  ⟨data[k], List.getElem?_eq_getElem h, by simp [byteAt, List.getElem?_eq_getElem h]⟩

theorem uint16At_of_lt (data : List Byte) (k : Nat) (h : k + 1 < data.length) :
    uint16At data k = some (byteAt data k * 256 + byteAt data (k + 1)) := by
  obtain ⟨a, ha, hav⟩ := getElem?_eq_some_byteAt data (k) (by omega)
  obtain ⟨b, hb, hbv⟩ := getElem?_eq_some_byteAt data (k + 1) h
  simp [uint16At, ha, hb, hav, hbv]

theorem uint32At_of_lt (data : List Byte) (k : Nat) (h : k + 3 < data.length) :
    uint32At data k =
      some ((byteAt data k * 256 + byteAt data (k + 1)) * 65536 +
        (byteAt data (k + 2) * 256 + byteAt data (k + 3))) := by
  have h1 := uint16At_of_lt data (k) (by omega)
  have h2 := uint16At_of_lt data (k + 2) (by omega)
  simp [uint32At, h1, h2]

theorem high_nibble_eq (d : Byte) : (d.val >>> 4) &&& 0x0f = d.val / 16 := by
  have h1 : d.val >>> 4 = d.val / 16 := by simp [Nat.shiftRight_eq_div_pow]
  have h2 := Nat.and_pow_two_sub_one_eq_mod (d.val / 16) 4
  have h3 : d.val / 16 < 16 := by have := d.isLt; omega
  rw [h1]
  simp only [Nat.reducePow, Nat.add_one_sub_one] at h2
  rw [h2]
  exact Nat.mod_eq_of_lt h3

theorem low_nibble_shift_eq (d : Byte) : (d.val &&& 0x0f) <<< 2 = d.val % 16 * 4 := by
  have h2 := Nat.and_pow_two_sub_one_eq_mod d.val 4
  simp only [Nat.reducePow, Nat.add_one_sub_one] at h2
  rw [h2, Nat.shiftLeft_eq]

theorem low13_eq (x : Nat) : x &&& 0x1FFF = x % 8192 := by
  have h2 := Nat.and_pow_two_sub_one_eq_mod x 13
  simpa using h2

/-- C4: in `decrypt` and in `decryptToTun`, when `DecryptDanger` returns an error
the call returns with the session exactly as it was (so the replay window, with
`current`, `bits`, `firstSeen` and its three counters, is unchanged), whatever
`Check` says about the counter: `Update` is only reached after a successful
decryption. -/
theorem window_unchanged_when_decrypt_fails (env : Env) (hostinfo : HostInfo)
    (cs : ConnectionState) (mc : Nat) (packet : List Byte) (fwPacket : FirewallPacket)
    (hcs : hostinfo.ConnectionState = some cs) (hlen : HeaderLen ≤ packet.length)
    (hfail : env.DecryptDanger cs.dKey (packet.take HeaderLen) (packet.drop HeaderLen) mc =
      none) :
    decrypt env hostinfo mc packet = some (hostinfo, .error .aead) ∧
      decryptToTun env hostinfo mc packet fwPacket = some (hostinfo, fwPacket, []) := by
  have hl : ¬ packet.length < HeaderLen := Nat.not_lt.mpr hlen
  constructor
  · unfold decrypt
    rw [hcs]
    simp only [hl, if_false, hfail]
  · unfold decryptToTun
    rw [hcs]
    simp only [hl, if_false, hfail]

/-- C4 on a forged datagram for `sessionA` whose counter 1 passes `Check`. -/
theorem window_unchanged_when_decrypt_fails_witness :
    (sessionA.ConnectionState = some { dKey := 0, window := NewBits 16 } ∧
        HeaderLen ≤ forgedDatagram.length ∧
        envAeadFails.DecryptDanger 0 (forgedDatagram.take HeaderLen)
          (forgedDatagram.drop HeaderLen) 1 = none ∧
        Check (NewBits 16) 1 = some true) ∧
      (decrypt envAeadFails sessionA 1 forgedDatagram = some (sessionA, .error .aead) ∧
        decryptToTun envAeadFails sessionA 1 forgedDatagram emptyFirewallPacket =
          some (sessionA, emptyFirewallPacket, [])) :=
  ⟨⟨rfl, by decide, rfl, by decide⟩,
    window_unchanged_when_decrypt_fails envAeadFails sessionA
      { dKey := 0, window := NewBits 16 } 1 forgedDatagram emptyFirewallPacket rfl (by decide)
      rfl⟩

/-- C5, at the failing input: a datagram of type `message` for the known session
`sessionA`, sent from an address that is not the session's remote, whose counter
passes `Check` and whose AEAD decryption fails, still reaches
`handleHostRoaming`: `readOutsidePackets` leaves the session with `remote` set
to the datagram's source, `lastRoamRemote` set to the old remote and `lastRoam`
set to the current time (`decryptToTun` returns nothing, so the `message` case
falls through on failure; the `lightHouse` and `test` cases return). -/
theorem roams_after_failed_decrypt_of_message :
    envAeadFails.DecryptDanger 0 (forgedDatagram.take HeaderLen)
        (forgedDatagram.drop HeaderLen) forgedHeader.MessageCounter = none ∧
      sessionA.remote ≠ some otherAddr ∧
      readOutsidePackets envAeadFails ⟨[sessionA], [], []⟩ otherAddr forgedDatagram
          (some forgedHeader) emptyFirewallPacket =
        some (⟨[{ sessionA with
            remote := some otherAddr
            lastRoam := some envAeadFails.now
            lastRoamRemote := sessionA.remote }], [], [.connectionManagerIn 1]⟩,
          emptyFirewallPacket) := by
  decide

/-- C9, as stated, fails: for a session whose remote is not set and whose
`RecvErrorExceeded()` is true, `handleRecvError` removes the session from the
host map and from the pending map and nulls its connection state, although the
source address does not equal the session's remote. -/
theorem recvError_applied_when_remote_unset :
    QueryReverseIndex [sessionNoRemote] recvErrorHeader.RemoteIndex = some sessionNoRemote ∧
      sessionNoRemote.remote ≠ some otherAddr ∧
      handleRecvError envAeadFails ⟨[sessionNoRemote], [sessionNoRemote], []⟩ otherAddr
          recvErrorHeader =
        (⟨[], [], []⟩, some { sessionNoRemote with ConnectionState := none }) := by
  decide

/-- C9 (amended): `handleRecvError` either leaves the interface and the session
unchanged, or all of the following hold: (a) `QueryReverseIndex(h.RemoteIndex)`
resolves to a session, (b) that session's `RecvErrorExceeded()` is true, (c) the
session's remote is not set or equals `addr`; and then the session is removed
from the host map and from the pending map and its connection state is nulled. -/
theorem handleRecvError_applies_only_if (env : Env) (f : Interface) (addr : udpAddr)
    (h : Header) :
    handleRecvError env f addr h = (f, QueryReverseIndex f.hostMap h.RemoteIndex) ∨
      ∃ hostinfo, QueryReverseIndex f.hostMap h.RemoteIndex = some hostinfo ∧
        env.RecvErrorExceeded hostinfo = true ∧
        (hostinfo.remote = none ∨ hostinfo.remote = some addr) ∧
        handleRecvError env f addr h =
          ({ f with
              hostMap := DeleteHostInfo f.hostMap hostinfo
              pendingHostMap := DeleteHostInfo f.pendingHostMap hostinfo },
            some { hostinfo with ConnectionState := none }) := by
  unfold handleRecvError
  cases hq : QueryReverseIndex f.hostMap h.RemoteIndex with
  | none => exact Or.inl rfl
  | some hostinfo =>
    simp only
    cases he : env.RecvErrorExceeded hostinfo with
    | false => exact Or.inl (by simp)
    | true =>
      cases hrem : hostinfo.remote with
      | none => exact Or.inr ⟨hostinfo, rfl, he, Or.inl hrem, by simp [hrem]⟩
      | some remote =>
        by_cases hd : remote = addr
        · refine Or.inr ⟨hostinfo, rfl, he, Or.inr (by rw [hrem, hd]), ?_⟩
          simp [hrem, stringsDiffer, hd]
        · exact Or.inl (by simp [stringsDiffer, hd])

/-- C10, as stated, fails: the 20-byte buffer `shortFragment` has version 4,
`IHL * 4 = 24 ≥ 20` and is a non-first fragment, so the four listed checks hold,
yet `newPacket` returns an error: the buffer is shorter than its `IHL * 4`
header bytes. -/
theorem newPacket_rejects_fragment_shorter_than_header :
    (20 ≤ shortFragment.length ∧ versionNibble shortFragment = 4 ∧
        20 ≤ IHL shortFragment * 4 ∧
        ((fragmentOffset shortFragment = 0 ∧ byteAt shortFragment 9 ≠ fwProtoICMP) →
          IHL shortFragment * 4 + 4 ≤ shortFragment.length)) ∧
      (newPacket shortFragment true emptyFirewallPacket).map Prod.snd =
        some (some (.tooShortForHeader 24 24)) ∧
      (newPacket shortFragment false emptyFirewallPacket).map Prod.snd =
        some (some (.tooShortForHeader 24 24)) := by
  decide

/-- C10 (amended): `newPacket` always returns, and it returns nil if and only if
`len(data) ≥ 20`, the high nibble of `data[0]` is 4, `IHL * 4 ≥ 20`,
`len(data) ≥ IHL * 4`, and, when the packet is neither a non-first fragment nor
ICMP, `len(data) ≥ IHL * 4 + 4`; otherwise it returns an error. -/
theorem newPacket_ok_iff (data : List Byte) (incoming : Bool) (fp : FirewallPacket) :
    ∃ fp1 r, newPacket data incoming fp = some (fp1, r) ∧
      (r = none ↔
        (20 ≤ data.length ∧ versionNibble data = 4 ∧ 20 ≤ IHL data * 4 ∧
          IHL data * 4 ≤ data.length ∧
          ((fragmentOffset data = 0 ∧ byteAt data 9 ≠ fwProtoICMP) →
            IHL data * 4 + 4 ≤ data.length))) := by
  unfold newPacket
  by_cases h20 : data.length < ipv4HeaderLen
  · rw [if_pos h20]
    refine ⟨_, _, rfl, fun h => ?_, fun h => ?_⟩
    · cases h
    · unfold ipv4HeaderLen at h20
      omega
  rw [if_neg h20]
  have h20a : 20 ≤ data.length := by unfold ipv4HeaderLen at h20; omega
  obtain ⟨d0, hd0, hv0⟩ := getElem?_eq_some_byteAt data (0) (by omega)
  obtain ⟨d9, hd9, hv9⟩ := getElem?_eq_some_byteAt data (9) (by omega)
  rw [hd0, hd9, uint16At_of_lt data (6) (by omega),
    uint32At_of_lt data (12) (by omega),
    uint32At_of_lt data (16) (by omega)]
  simp only [Option.some_bind, high_nibble_eq, low_nibble_shift_eq, low13_eq, hv0, hv9]
  have hF : ∀ x : Nat, decide (x ≠ 0) = false ↔ x = 0 := by
    intro x; simp
  have hnone : ∀ e : PacketError, ¬ (some e = (none : Option PacketError)) := by
    intro e h; cases h
  unfold ipv4HeaderLen minFwPacketLen
  by_cases hver : byteAt data 0 / 16 ≠ 4
  · rw [if_pos hver]
    refine ⟨_, _, rfl, fun h => absurd h (hnone _), ?_⟩
    rintro ⟨-, h, -⟩
    exact absurd h hver
  rw [if_neg hver]
  have hver1 : versionNibble data = 4 := by
    unfold versionNibble; exact Decidable.of_not_not hver
  by_cases hihl : byteAt data 0 % 16 * 4 < 20
  · rw [if_pos hihl]
    refine ⟨_, _, rfl, fun h => absurd h (hnone _), ?_⟩
    rintro ⟨-, -, h, -⟩
    unfold IHL at h
    omega
  rw [if_neg hihl]
  by_cases hfi : decide ((byteAt data 6 * 256 + byteAt data (6 + 1)) % 8192 ≠ 0) = false ∧
      byteAt data 9 ≠ fwProtoICMP
  · have hfi2 : ¬ (decide ((byteAt data 6 * 256 + byteAt data (6 + 1)) % 8192 ≠ 0) = true ∨
        byteAt data 9 = fwProtoICMP) := by
      rintro (h | h)
      · rw [hfi.1] at h; exact absurd h (by decide)
      · exact hfi.2 h
    have hfrag : fragmentOffset data = 0 := (hF _).mp hfi.1
    simp only [if_pos hfi, if_neg hfi2]
    by_cases hlen : data.length < byteAt data 0 % 16 * 4 + 4
    · rw [if_pos hlen]
      refine ⟨_, _, rfl, fun h => absurd h (hnone _), ?_⟩
      rintro ⟨-, -, -, -, h⟩
      have := h ⟨hfrag, hfi.2⟩
      unfold IHL at this
      omega
    · rw [if_neg hlen]
      rw [uint16At_of_lt data (byteAt data 0 % 16 * 4) (by omega),
        uint16At_of_lt data (byteAt data 0 % 16 * 4 + 2) (by omega)]
      simp only [Option.some_bind]
      have hrhs : 20 ≤ data.length ∧ versionNibble data = 4 ∧ 20 ≤ IHL data * 4 ∧
          IHL data * 4 ≤ data.length ∧
          ((fragmentOffset data = 0 ∧ byteAt data 9 ≠ fwProtoICMP) →
            IHL data * 4 + 4 ≤ data.length) := by
        unfold IHL
        exact ⟨h20a, hver1, by omega, by omega, fun _ => by omega⟩
      cases incoming with
      | true => exact ⟨_, _, rfl, fun _ => hrhs, fun _ => rfl⟩
      | false => exact ⟨_, _, rfl, fun _ => hrhs, fun _ => rfl⟩
  · have hfi2 : decide ((byteAt data 6 * 256 + byteAt data (6 + 1)) % 8192 ≠ 0) = true ∨
        byteAt data 9 = fwProtoICMP := by
      by_cases h9 : byteAt data 9 = fwProtoICMP
      · exact Or.inr h9
      · refine Or.inl ?_
        cases hd : decide ((byteAt data 6 * 256 + byteAt data (6 + 1)) % 8192 ≠ 0) with
        | true => rfl
        | false => exact absurd ⟨hd, h9⟩ hfi
    have hvac : ¬ (fragmentOffset data = 0 ∧ byteAt data 9 ≠ fwProtoICMP) := by
      rintro ⟨h1, h2⟩
      exact hfi ⟨(hF _).mpr h1, h2⟩
    simp only [if_neg hfi, if_pos hfi2]
    by_cases hlen : data.length < byteAt data 0 % 16 * 4
    · rw [if_pos hlen]
      refine ⟨_, _, rfl, fun h => absurd h (hnone _), ?_⟩
      rintro ⟨-, -, -, h, -⟩
      unfold IHL at h
      omega
    · rw [if_neg hlen]
      simp only [Option.some_bind]
      have hrhs : 20 ≤ data.length ∧ versionNibble data = 4 ∧ 20 ≤ IHL data * 4 ∧
          IHL data * 4 ≤ data.length ∧
          ((fragmentOffset data = 0 ∧ byteAt data 9 ≠ fwProtoICMP) →
            IHL data * 4 + 4 ≤ data.length) := by
        unfold IHL
        exact ⟨h20a, hver1, by omega, by omega, fun h => absurd h hvac⟩
      cases incoming with
      | true => exact ⟨_, _, rfl, fun _ => hrhs, fun _ => rfl⟩
      | false => exact ⟨_, _, rfl, fun _ => hrhs, fun _ => rfl⟩

/-! ## The replay window: further properties -/

theorem length_lt_of_reachable {L : Nat} {b : Bits} (h : Reachable L b) : L < 2 ^ 63 := by
  induction h with
  | init h63 => exact h63
  | step _ _ _ _ ih => exact ih

/-- The first case of `Update`: the counter after `current`, as long as
`current + 1` does not wrap. -/
theorem Update_next {L : Nat} {b : Bits} (h : WF L b) (hn : b.current + 1 < 2 ^ 64) :
    Update b (b.current + 1) =
      some ({ b with
        lostCounter :=
          if L < b.current + 1 ∧ bitAt b ((b.current + 1) % L) = false then
            addInt64 b.lostCounter 1
          else b.lostCounter
        bits := b.bits.set ((b.current + 1) % L) true
        current := b.current + 1 }, true) := by
  obtain ⟨len, cur, bits, fs, lc, dc, oc⟩ := b
  have hlen : len = L := h.len
  subst hlen
  have hblen : bits.length = len := h.blen
  have hpos : 0 < len := h.pos
  simp only at hn
  have h1 : add64 cur 1 = cur + 1 := add64_of_lt hn
  have hset : ∀ (bs : List Bool) (f : Bool) (l d o : Int) (c : Nat) (v : Bool),
      bs.length = len →
      setBit ⟨len, c, bs, f, l, d, o⟩ (cur + 1) v =
        some ⟨len, c, bs.set ((cur + 1) % len) v, f, l, d, o⟩ :=
    fun bs f l d o c v hb => setBit_of_wf (L := len) ⟨rfl, hb, hpos⟩ (cur + 1) v
  unfold Update
  simp only [h1, if_true]
  by_cases c1a : len < cur + 1
  · have c1g : cur + 1 > len := c1a
    rw [if_pos c1g, getBit_of_wf h (cur + 1)]
    by_cases c1b : bitAt ⟨len, cur, bits, fs, lc, dc, oc⟩ ((cur + 1) % len) = false
    · simp only [Option.some_bind, c1g, c1a, c1b, and_self, if_true]
      rw [hset _ _ _ _ _ _ _ hblen]
      rfl
    · have c1b1 : bitAt ⟨len, cur, bits, fs, lc, dc, oc⟩ ((cur + 1) % len) = true := by
        simpa using c1b
      simp only [Option.some_bind, c1g, c1a, c1b1, Bool.true_eq_false, and_false, if_false]
      rw [hset _ _ _ _ _ _ _ hblen]
      rfl
  · have c1g : ¬ cur + 1 > len := c1a
    rw [if_neg c1g]
    simp only [Option.some_bind, c1g, c1a, false_and, if_false]
    rw [hset _ _ _ _ _ _ _ hblen]
    rfl

/-- C13: on a window fresh from `NewBits L`, `L ≥ 1`, `Update(0)` returns `true`,
sets `firstSeen` and bit 0 and leaves `current` equal to 0; and on every
reachable state with `firstSeen` false and `current < L`, `Update(0)` returns
`true`, sets `firstSeen` and bit 0 and leaves `current` (and the three
counters) unchanged. -/
theorem first_window_zero {L : Nat} (hL : 0 < L) :
    (Reachable L (NewBits L) →
      ∃ b1, Update (NewBits L) 0 = some (b1, true) ∧ b1.firstSeen = true ∧
        bitAt b1 0 = true ∧ b1.current = 0) ∧
    ∀ b, Reachable L b → b.firstSeen = false → b.current < L →
      Update b 0 = some ({ b with firstSeen := true, bits := b.bits.set 0 true }, true) := by
  have gen : ∀ b, Reachable L b → b.firstSeen = false → b.current < L →
      Update b 0 = some ({ b with firstSeen := true, bits := b.bits.set 0 true }, true) := by
    intro b hr hfs hcur
    have h63 := length_lt_of_reachable hr
    rw [Update_of_nowrap (wf_of_reachable hL hr) (by omega) 0 (by decide)]
    rw [if_neg (by omega), if_neg (by omega), if_neg (by omega), if_pos ⟨rfl, hfs, hcur⟩,
      Nat.zero_mod]
  refine ⟨fun hr => ?_, gen⟩
  refine ⟨_, gen (NewBits L) hr rfl hL, rfl, ?_, rfl⟩
  have hlen : 0 < (NewBits L).bits.length := by simp [NewBits, hL]
  simp only [bitAt]
  exact getD_set_self hlen true

/-- C13 on the window of length 128, the instance of the specification. -/
theorem first_window_zero_witness :
    (0 < 128 ∧ Reachable 128 (NewBits 128)) ∧
      ((Reachable 128 (NewBits 128) →
        ∃ b1, Update (NewBits 128) 0 = some (b1, true) ∧ b1.firstSeen = true ∧
          bitAt b1 0 = true ∧ b1.current = 0) ∧
      ∀ b, Reachable 128 b → b.firstSeen = false → b.current < 128 →
        Update b 0 = some ({ b with firstSeen := true, bits := b.bits.set 0 true }, true)) :=
  ⟨⟨by decide, Reachable.init (by decide)⟩, first_window_zero (by decide)⟩

/-- C17: on every state reachable from `NewBits L`, `L ≥ 1`, and for every
counter `c`, the ring has `L = length` slots, the index `c mod length` is
inside it, and `Check(c)` and `Update(c)` return a boolean: no ring access is
out of range and no division by zero occurs. -/
theorem window_never_fails {L : Nat} {b : Bits} (hL : 0 < L) (hr : Reachable L b)
    (c : Nat) :
    b.length = L ∧ b.bits.length = L ∧ c % b.length < b.bits.length ∧
      (∃ r, Check b c = some r) ∧ ∃ b1 r, Update b c = some (b1, r) := by
  have hw := wf_of_reachable hL hr
  refine ⟨hw.len, hw.blen, ?_, ?_, ?_⟩
  · rw [hw.len, hw.blen]; exact Nat.mod_lt _ hL
  · unfold Check
    rw [getBit_of_wf hw]
    by_cases k1 : c > b.current ∨ (c = 0 ∧ b.firstSeen = false ∧ b.current < b.length)
    · rw [if_pos k1]; exact ⟨_, rfl⟩
    rw [if_neg k1]
    by_cases k2 : c > sub64 b.current b.length
    · rw [if_pos k2]; exact ⟨_, rfl⟩
    rw [if_neg k2]
    by_cases k3 : c < b.length
    · rw [if_pos k3]; exact ⟨_, rfl⟩
    · rw [if_neg k3]; exact ⟨_, rfl⟩
  · obtain ⟨b1, r, h1, -⟩ := Update_total hw c
    exact ⟨b1, r, h1⟩

/-- C17 on the window of length 16 after `Update(1)`, `Update(100)` and the
counter `2^64 - 1`. -/
theorem window_never_fails_witness :
    (0 < 16 ∧ Reachable 16 afterFarJump) ∧
      (afterFarJump.length = 16 ∧ afterFarJump.bits.length = 16 ∧
        (2 ^ 64 - 1) % afterFarJump.length < afterFarJump.bits.length ∧
        (∃ r, Check afterFarJump (2 ^ 64 - 1) = some r) ∧
        ∃ b1 r, Update afterFarJump (2 ^ 64 - 1) = some (b1, r)) :=
  ⟨⟨by decide, afterFarJump_reachable⟩,
    window_never_fails (by decide) afterFarJump_reachable (2 ^ 64 - 1)⟩

theorem InOrder_NewBits {L : Nat} (hL : 0 < L) : InOrder L 0 (NewBits L) :=
  ⟨NewBits_wf hL, rfl, rfl, rfl, rfl, fun m h1 h2 _ => by omega⟩

theorem InOrder_step {L k : Nat} {b : Bits} (h : InOrder L k b) (hk : k + 1 < 2 ^ 64) :
    ∃ b1, Update b (k + 1) = some (b1, true) ∧ InOrder L (k + 1) b1 := by
  have hw := h.wf
  have hcur := h.cur
  have hu := Update_next hw (by rw [hcur]; exact hk)
  rw [hcur] at hu
  have hnolost : ¬ (L < k + 1 ∧ bitAt b ((k + 1) % L) = false) := by
    rintro ⟨h1, h2⟩
    have hpos := hw.pos
    have h3 := h.seen (k + 1 - L) (by omega) (by omega) (by omega)
    have h4 : (k + 1) % L = (k + 1 - L) % L := by
      have e : k + 1 - L + L = k + 1 := by omega
      calc (k + 1) % L = (k + 1 - L + L) % L := by rw [e]
        _ = (k + 1 - L) % L := Nat.add_mod_right _ _
    rw [← h4, h2] at h3
    exact absurd h3 (by decide)
  rw [if_neg hnolost] at hu
  refine ⟨_, hu, ⟨hw.len, by simp [hw.blen], hw.pos⟩, rfl, h.lost, h.dupe, h.oow, ?_⟩
  intro m h1 h2 h3
  have hmod : (k + 1) % L < b.bits.length := by rw [hw.blen]; exact Nat.mod_lt _ hw.pos
  by_cases hm : m = k + 1
  · subst hm
    simp only [bitAt]
    exact getD_set_self hmod true
  · simp only [bitAt]
    apply getD_set_true_of_true
    exact h.seen m h1 (by omega) (by omega)

theorem InOrder_run {L : Nat} (n : Nat) : ∀ (k : Nat) (b : Bits), InOrder L k b →
    k + n < 2 ^ 64 →
    ∃ bf, runUpdates b (List.range' (k + 1) n) = some (bf, List.replicate n true) ∧
      InOrder L (k + n) bf := by
  induction n with
  | zero => intro k b h _; exact ⟨b, rfl, h⟩
  | succ n ih =>
    intro k b h hk
    obtain ⟨b1, hu, h1⟩ := InOrder_step h (by omega)
    obtain ⟨bf, hrun, hf⟩ := ih (k + 1) b1 h1 (by omega)
    refine ⟨bf, ?_, ?_⟩
    · rw [List.range'_succ]
      simp [runUpdates, hu, hrun, List.replicate_succ]
    · have : k + (n + 1) = k + 1 + n := by omega
      rw [this]; exact hf

/-- C14: for every window length `L ≥ 1` and every `n` (a 64-bit counter),
starting from `NewBits L` the calls `Update(1)`, ..., `Update(n)` in this order
all return `true`, and afterwards `current = n` and the lost, duplicate and
out-of-window counters are still 0. -/
theorem in_order_stream_admitted (L n : Nat) (hL : 0 < L) (hn : n < 2 ^ 64) :
    ∃ bf, runUpdates (NewBits L) (List.range' 1 n) = some (bf, List.replicate n true) ∧
      bf.current = n ∧ bf.lostCounter = 0 ∧ bf.dupeCounter = 0 ∧
      bf.outOfWindowCounter = 0 := by
  obtain ⟨bf, hrun, hf⟩ := InOrder_run n 0 (NewBits L) (InOrder_NewBits hL) (by omega)
  refine ⟨bf, hrun, ?_, hf.lost, hf.dupe, hf.oow⟩
  have := hf.cur
  omega

/-- C14 on the scenario S1: `L = 16` and `Update(1)`, ..., `Update(16)`. -/
theorem in_order_stream_admitted_witness :
    (0 < 16 ∧ 16 < 2 ^ 64) ∧
      ∃ bf, runUpdates (NewBits 16) (List.range' 1 16) = some (bf, List.replicate 16 true) ∧
        bf.current = 16 ∧ bf.lostCounter = 0 ∧ bf.dupeCounter = 0 ∧
        bf.outOfWindowCounter = 0 :=
  ⟨⟨by decide, by decide⟩, in_order_stream_admitted 16 16 (by decide) (by decide)⟩

theorem afterZero_reachable : Reachable 16 afterZero :=
  reachable_of_runUpdates [0] (NewBits 16) afterZero [true] (Reachable.init (by decide))
    (by decide) (by decide)

theorem afterOne_reachable : Reachable 16 afterOne :=
  reachable_of_runUpdates [1] (NewBits 16) afterOne [true] (Reachable.init (by decide))
    (by decide) (by decide)

theorem nearMaxCounter_reachable : Reachable 16 nearMaxCounter :=
  reachable_of_runUpdates [2 ^ 64 - 10] (NewBits 16) nearMaxCounter [true]
    (Reachable.init (by decide)) (by decide) (by decide)

theorem toInt64_of_lt {x : Nat} (h : x < 2 ^ 63) : toInt64 x = (x : Int) := by
  unfold toInt64
  rw [if_pos h]

theorem maxInt64_zero_natCast (x : Nat) : maxInt64 0 (x : Int) = (x : Int) := by
  unfold maxInt64
  rw [if_neg (by omega)]

theorem incInt64_natCast {x : Nat} (h : x + 1 < 2 ^ 63) : incInt64 (x : Int) = (x : Int) + 1 := by
  unfold incInt64
  rw [if_pos (by omega)]

theorem getD_map_false (l : List Bool) (j : Nat) :
    (((l.map fun _ => false)[j]?).getD false) = false := by
  by_cases h : j < l.length
  · simp [List.getElem?_eq_getElem, h]
  · simp [List.getElem?_eq_none (Nat.le_of_not_lt h)]

theorem addInt64_range {a b : Int} (ha : inInt64 a) (hb : inInt64 b) :
    inInt64 (addInt64 a b) := by
  unfold inInt64 at ha hb ⊢
  unfold addInt64
  split_ifs <;> omega

theorem addInt64_of_fits {a b : Int} (h1 : -(2 ^ 63) ≤ a + b) (h2 : a + b < 2 ^ 63) :
    addInt64 a b = a + b := by
  unfold addInt64
  rw [if_neg (by omega), if_neg (by omega)]

theorem toInt64_range {x : Nat} (h : x < 2 ^ 64) : inInt64 (toInt64 x) := by
  unfold inInt64 toInt64
  split_ifs <;> omega

theorem maxInt64_zero_range {y : Int} (h : inInt64 y) : inInt64 (maxInt64 0 y) := by
  unfold inInt64 at h ⊢
  unfold maxInt64
  split_ifs <;> omega

theorem incInt64_range {y : Int} (h : inInt64 y) : inInt64 (incInt64 y) := by
  unfold inInt64 at h ⊢
  unfold incInt64
  split_ifs <;> omega

theorem sub64_lt (a b : Nat) : sub64 a b < 2 ^ 64 := by
  unfold sub64
  exact Nat.mod_lt _ (by decide)

/-- One `Update` call keeps the lost counter an `int64`. -/
theorem Update_lostCounter_range {L : Nat} {b : Bits} (h : WF L b) (i : Nat)
    (hrng : inInt64 b.lostCounter) :
    ∃ b1 r, Update b i = some (b1, r) ∧ inInt64 b1.lostCounter := by
  obtain ⟨len, cur, bits, fs, lc, dc, oc⟩ := b
  have hlen : len = L := h.len
  subst hlen
  have hblen : bits.length = len := h.blen
  have hpos : 0 < len := h.pos
  simp only at hrng
  have hone : inInt64 1 := by unfold inInt64; omega
  have hset : ∀ (bs : List Bool) (f : Bool) (l d o : Int) (c : Nat) (v : Bool),
      bs.length = len →
      setBit ⟨len, c, bs, f, l, d, o⟩ i v = some ⟨len, c, bs.set (i % len) v, f, l, d, o⟩ :=
    fun bs f l d o c v hb => setBit_of_wf (L := len) ⟨rfl, hb, hpos⟩ i v
  unfold Update
  simp only
  by_cases c1 : i = add64 cur 1
  · rw [if_pos c1]
    by_cases c1a : i > len
    · rw [if_pos c1a, getBit_of_wf h i]
      simp only [Option.some_bind]
      by_cases c1b : i > len ∧ bitAt ⟨len, cur, bits, fs, lc, dc, oc⟩ (i % len) = false
      · rw [if_pos c1b, hset _ _ _ _ _ _ _ hblen]
        exact ⟨_, _, rfl, addInt64_range hrng hone⟩
      · rw [if_neg c1b, hset _ _ _ _ _ _ _ hblen]
        exact ⟨_, _, rfl, hrng⟩
    · rw [if_neg c1a]
      simp only [Option.some_bind, c1a, false_and, if_false]
      rw [hset _ _ _ _ _ _ _ hblen]
      exact ⟨_, _, rfl, hrng⟩
  rw [if_neg c1]
  by_cases c2 : i > cur ∧ i < add64 cur len
  · rw [if_pos c2, clearLoop_of_wf _ _ _ h]
    simp only [Option.some_bind]
    rw [hset _ _ _ _ _ _ _ (by rw [length_clearBits, hblen])]
    exact ⟨_, _, rfl, hrng⟩
  rw [if_neg c2]
  by_cases c3 : i ≥ add64 cur len
  · rw [if_pos c3, hset _ _ _ _ _ _ _ (by rw [List.length_map, hblen])]
    refine ⟨_, _, rfl, addInt64_range hrng ?_⟩
    have hm := maxInt64_zero_range (toInt64_range (sub64_lt (sub64 i cur) len))
    by_cases c3a : cur = 0
    · rw [if_pos c3a]; exact incInt64_range hm
    · rw [if_neg c3a]; exact hm
  rw [if_neg c3]
  by_cases c4 : i = 0 ∧ fs = false ∧ cur < len
  · rw [if_pos c4, hset _ _ _ _ _ _ _ hblen]
    exact ⟨_, _, rfl, hrng⟩
  rw [if_neg c4]
  by_cases c5 : ((cur ≥ len ∧ i > sub64 cur len) ∨ (cur < len ∧ i < len)) ∧ i ≤ cur
  · rw [if_pos c5]
    by_cases c5a : cur = i
    · rw [if_pos c5a]
      exact ⟨_, _, rfl, hrng⟩
    · rw [if_neg c5a, getBit_of_wf h i]
      simp only [Option.some_bind]
      by_cases c5b : bitAt ⟨len, cur, bits, fs, lc, dc, oc⟩ (i % len) = true
      · rw [if_pos c5b]
        exact ⟨_, _, rfl, hrng⟩
      · rw [if_neg c5b, hset _ _ _ _ _ _ _ hblen]
        exact ⟨_, _, rfl, hrng⟩
  · rw [if_neg c5]
    exact ⟨_, _, rfl, hrng⟩

theorem lostCounter_range_of_reachable {L : Nat} {b : Bits} (hL : 0 < L)
    (h : Reachable L b) : inInt64 b.lostCounter := by
  induction h with
  | init _ =>
    unfold inInt64
    simp only [NewBits]
    omega
  | step c hprev _ hu ih =>
    obtain ⟨b2, r2, h2, hrng⟩ := Update_lostCounter_range (wf_of_reachable hL hprev) c ih
    rw [h2] at hu
    cases hu
    exact hrng

theorem afterHugeJump_reachable : Reachable 16 afterHugeJump :=
  reachable_of_runUpdates [2 ^ 62 + 16] (NewBits 16) afterHugeJump [true]
    (Reachable.init (by decide)) (by decide) (by decide)

/-- C12, as stated, fails, in two ways. On the fresh window of length 16 the far
jump `Update(2^64 - 1)` returns `true` but adds 1 to the lost counter, not
`(2^64 - 1) - 0 - 16` plus 1: `int64(i - current - length)` is negative and is
clamped to 0 by `maxInt64`. And on the reachable window `afterHugeJump` (length
16, `current = 2^62 + 16`, lost counter `2^62 + 1`) the far jump
`Update(2^63 + 32)` has loss `2^62`, and the `int64` lost counter wraps to
`-(2^63) + 1` instead of growing by `2^62`. -/
theorem far_jump_lost_clamped_or_wrapped :
    ((NewBits 16).current + 16 ≤ 2 ^ 64 - 1 ∧ 2 ^ 64 - 1 ≠ (NewBits 16).current + 1 ∧
        (Update (NewBits 16) (2 ^ 64 - 1)).map (fun p => (p.2, p.1.lostCounter)) =
          some (true, (NewBits 16).lostCounter + 1) ∧
        (NewBits 16).lostCounter +
            (((2 ^ 64 - 1 - (NewBits 16).current - 16 : Nat) : Int) + 1) ≠
          (NewBits 16).lostCounter + 1) ∧
      ((runUpdates (NewBits 16) [2 ^ 62 + 16]).map Prod.fst = some afterHugeJump ∧
        afterHugeJump.current + 16 ≤ 2 ^ 63 + 32 ∧
        2 ^ 63 + 32 ≠ afterHugeJump.current + 1 ∧
        2 ^ 63 + 32 - afterHugeJump.current - 16 = 2 ^ 62 ∧
        (Update afterHugeJump (2 ^ 63 + 32)).map (fun p => (p.2, p.1.lostCounter)) =
          some (true, -(2 ^ 63) + 1) ∧
        afterHugeJump.lostCounter + 2 ^ 62 ≠ -(2 ^ 63) + 1) := by
  decide

/-- C12 (amended): on every reachable state (length `L ≥ 1`) and for every 64-bit
counter `c` with `c ≥ current + L` and `c ≠ current + 1`, `Update(c)` returns
`true`, sets `current` to `c`, leaves every ring slot false except slot
`c mod L`, which is true, and leaves the duplicate and out-of-window counters
unchanged; and when the loss `c - current - L`, plus 1 when `current` is 0, is
below `2^63` and the lost counter plus this loss is below `2^63`, the lost
counter grows by exactly this loss. -/
theorem far_jump_accounting {L : Nat} {b : Bits} (hL : 0 < L) (hr : Reachable L b)
    (c : Nat) (hc : c < 2 ^ 64) (hfar : b.current + L ≤ c) (hne : c ≠ b.current + 1) :
    ∃ b1, Update b c = some (b1, true) ∧ b1.current = c ∧
      (∀ j, j < L → (bitAt b1 j = true ↔ j = c % L)) ∧
      b1.dupeCounter = b.dupeCounter ∧ b1.outOfWindowCounter = b.outOfWindowCounter ∧
      ((c - b.current - L) + (if b.current = 0 then 1 else 0) < 2 ^ 63 →
        b.lostCounter +
            (((c - b.current - L : Nat) : Int) + (if b.current = 0 then 1 else 0)) < 2 ^ 63 →
        b1.lostCounter =
          b.lostCounter +
            (((c - b.current - L : Nat) : Int) + (if b.current = 0 then 1 else 0))) := by
  have hw := wf_of_reachable hL hr
  have hrng := lostCounter_range_of_reachable hL hr
  unfold inInt64 at hrng
  rw [Update_of_nowrap hw (by omega) c hc]
  rw [if_neg hne, if_neg (by omega), if_pos hfar]
  refine ⟨_, rfl, rfl, ?_, rfl, rfl, ?_⟩
  · intro j hj
    simp only [bitAt]
    by_cases hjc : j = c % L
    · subst hjc
      have hlt : c % L < (b.bits.map fun _ => false).length := by
        rw [List.length_map, hw.blen]; exact hj
      rw [getD_set_self hlt true]
      exact ⟨fun _ => rfl, fun _ => rfl⟩
    · rw [getD_set_of_ne (fun h => hjc h.symm), getD_map_false]
      exact ⟨fun h => absurd h (by decide), fun h => absurd h hjc⟩
  · intro hfit hsum
    simp only
    by_cases h0 : b.current = 0
    · rw [if_pos h0] at hfit hsum
      rw [if_pos h0, if_pos h0, toInt64_of_lt (by omega), maxInt64_zero_natCast,
        incInt64_natCast (by omega)]
      exact addInt64_of_fits (by omega) hsum
    · rw [if_neg h0] at hfit hsum
      rw [if_neg h0, if_neg h0, toInt64_of_lt (by omega), maxInt64_zero_natCast]
      exact addInt64_of_fits (by omega) hsum

/-- C12 (amended) on the scenario S4: `L = 16`, `Update(1)`, then `Update(100)`,
which adds `100 - 1 - 16 = 83` to the lost counter. -/
theorem far_jump_accounting_witness :
    (0 < 16 ∧ Reachable 16 afterOne ∧ (100 : Nat) < 2 ^ 64 ∧ afterOne.current + 16 ≤ 100 ∧
        100 ≠ afterOne.current + 1) ∧
      ∃ b1, Update afterOne 100 = some (b1, true) ∧ b1.current = 100 ∧
        (∀ j, j < 16 → (bitAt b1 j = true ↔ j = 100 % 16)) ∧
        b1.dupeCounter = afterOne.dupeCounter ∧
        b1.outOfWindowCounter = afterOne.outOfWindowCounter ∧
        ((100 - afterOne.current - 16) + (if afterOne.current = 0 then 1 else 0) < 2 ^ 63 →
          afterOne.lostCounter +
              (((100 - afterOne.current - 16 : Nat) : Int) +
                (if afterOne.current = 0 then 1 else 0)) < 2 ^ 63 →
          b1.lostCounter =
            afterOne.lostCounter +
              (((100 - afterOne.current - 16 : Nat) : Int) +
                (if afterOne.current = 0 then 1 else 0))) :=
  ⟨⟨by decide, afterOne_reachable, by decide, by decide, by decide⟩,
    far_jump_accounting (by decide) afterOne_reachable 100 (by decide) (by decide)
      (by decide)⟩

theorem Inv_empty {L : Nat} {b : Bits} (h : WF L b) (hn : b.current + L < 2 ^ 64) :
    Inv L (fun _ => False) b :=
  ⟨h, hn, fun _ h => h.elim, fun _ h => h.elim, fun h => h.elim⟩

/-- After an admission the counter is inside the window: it is the new
`current`, or `current` did not move and the counter was inside the window. -/
theorem in_window_of_admitted {L : Nat} {b b1 : Bits} (h : WF L b)
    (hn : b.current + L < 2 ^ 64) (c : Nat) (hc : c < 2 ^ 64)
    (hu : Update b c = some (b1, true)) :
    b1.current = c ∨
      (b1.current = b.current ∧
        ((L ≤ b.current ∧ b.current < c + L) ∨ (b.current < L ∧ c < L))) := by
  rw [Update_of_nowrap h hn c hc] at hu
  by_cases c1 : c = b.current + 1
  · rw [if_pos c1] at hu
    cases hu
    exact Or.inl rfl
  rw [if_neg c1] at hu
  by_cases c2 : b.current < c ∧ c < b.current + L
  · rw [if_pos c2] at hu
    cases hu
    exact Or.inl rfl
  rw [if_neg c2] at hu
  by_cases c3 : b.current + L ≤ c
  · rw [if_pos c3] at hu
    cases hu
    exact Or.inl rfl
  rw [if_neg c3] at hu
  by_cases c4 : c = 0 ∧ b.firstSeen = false ∧ b.current < L
  · rw [if_pos c4] at hu
    cases hu
    exact Or.inr ⟨rfl, Or.inr ⟨c4.2.2, by have := h.pos; omega⟩⟩
  rw [if_neg c4] at hu
  by_cases c5 : ((L ≤ b.current ∧ b.current < c + L) ∨ (b.current < L ∧ c < L)) ∧ c ≤ b.current
  · rw [if_pos c5] at hu
    by_cases c5a : b.current = c ∨ bitAt b (c % L) = true
    · rw [if_pos c5a] at hu
      cases hu
    · rw [if_neg c5a] at hu
      cases hu
      exact Or.inr ⟨rfl, c5.1⟩
  · rw [if_neg c5] at hu
    cases hu

/-- C15, as stated, fails: on the fresh window of length 16 the calls
`Update(2^64 - 1)`, `Update(2^64 - 1)` both return `true` (in the second call
`current + length` wraps and the far-jump test holds), and the duplicate
counter stays 0. -/
theorem duplicate_admitted_at_wraparound :
    (runUpdates (NewBits 16) [2 ^ 64 - 1, 2 ^ 64 - 1]).map
        (fun p => (p.2, p.1.dupeCounter)) = some ([true, true], 0) := by
  decide

/-- C15 (amended): on every reachable state with `current + L < 2^64` and for
every counter `c` with `c + L < 2^64`, if `Update(c)` returns `true` then an
immediately following `Update(c)` returns `false`, adds exactly 1 to the
duplicate counter and leaves `current`, `bits`, `firstSeen` and the lost and
out-of-window counters unchanged. -/
theorem duplicate_rejected_below_wraparound {L : Nat} {b b1 : Bits} (hL : 0 < L)
    (hr : Reachable L b) (hn : b.current + L < 2 ^ 64) (c : Nat) (hc : c + L < 2 ^ 64)
    (hu : Update b c = some (b1, true)) :
    Update b1 c = some ({ b1 with dupeCounter := b1.dupeCounter + 1 }, false) := by
  have hw := wf_of_reachable hL hr
  have hc64 : c < 2 ^ 64 := by omega
  obtain ⟨b2, r, hu2, -, hI⟩ := Update_preserves_Inv (Inv_empty hw hn) c hc
  rw [hu] at hu2
  cases hu2
  have hle : c ≤ b1.current := hI.adm_le c (Or.inr ⟨rfl, rfl⟩)
  have hwin : (L ≤ b1.current ∧ b1.current < c + L) ∨ (b1.current < L ∧ c < L) := by
    rcases in_window_of_admitted hw hn c hc64 hu with h1 | ⟨h1, h2⟩
    · by_cases h3 : L ≤ b1.current
      · exact Or.inl ⟨h3, by omega⟩
      · exact Or.inr ⟨by omega, by omega⟩
    · rw [h1]; exact h2
  rw [Update_of_nowrap hI.wf hI.nowrap c hc64]
  rw [if_neg (by omega), if_neg (by omega), if_neg (by omega)]
  have h4 : ¬ (c = 0 ∧ b1.firstSeen = false ∧ b1.current < L) := by
    rintro ⟨h0, hfs, -⟩
    have := hI.adm_zero (Or.inr ⟨rfl, h0.symm⟩)
    rw [hfs] at this
    exact absurd this (by decide)
  rw [if_neg h4, if_pos ⟨hwin, hle⟩]
  have hbit : bitAt b1 (c % L) = true :=
    hI.adm_bit c (Or.inr ⟨rfl, rfl⟩) (by
      rcases hwin with h | h
      · exact Or.inr h
      · exact Or.inl h)
  rw [if_pos (Or.inr hbit)]

/-- C15 (amended) on the fresh window of length 16: `Update(0)` admits, the next
`Update(0)` is rejected as a duplicate. -/
theorem duplicate_rejected_below_wraparound_witness :
    (0 < 16 ∧ Reachable 16 (NewBits 16) ∧ (NewBits 16).current + 16 < 2 ^ 64 ∧
        0 + 16 < 2 ^ 64 ∧ Update (NewBits 16) 0 = some (afterZero, true)) ∧
      Update afterZero 0 =
        some ({ afterZero with dupeCounter := afterZero.dupeCounter + 1 }, false) :=
  ⟨⟨by decide, Reachable.init (by decide), by decide, by decide, by decide⟩,
    duplicate_rejected_below_wraparound (L := 16) (b := NewBits 16) (by decide)
      (Reachable.init (by decide)) (by decide) 0 (by decide)
      (show Update (NewBits 16) 0 = some (afterZero, true) by decide)⟩

theorem getElem?_clearBits_of_mem (L j : Nat) (k : Nat) :
    ∀ (l : List Bool) (n : Nat), j < l.length → (∃ m, n ≤ m ∧ m < n + k ∧ m % L = j) →
      (clearBits l L n k)[j]? = some false := by
  induction k with
  | zero =>
    intro l n _ h
    obtain ⟨m, h1, h2, -⟩ := h
    omega
  | succ k ih =>
    intro l n hj h
    simp only [clearBits]
    by_cases hex : ∃ m, n + 1 ≤ m ∧ m < n + 1 + k ∧ m % L = j
    · exact ih _ _ (by simp [hj]) hex
    · obtain ⟨m, h1, h2, h3⟩ := h
      have hmn : m = n := by
        by_contra hne
        exact hex ⟨m, by omega, by omega, h3⟩
      subst hmn
      rw [getElem?_clearBits_of_ne]
      · subst h3
        simp [List.getElem?_set, hj]
      · intro m2 h4 h5 h6
        exact hex ⟨m2, h4, h5, h6⟩

theorem GapInv_step {L k c : Nat} {S : Nat → Prop} {b : Bits} (h : GapInv L k c S b)
    (hkc : c < k + L) (hc : c + L < 2 ^ 64) (m : Nat) (h1 : k < m) (h2 : m < c) :
    ∃ b1 r, Update b m = some (b1, r) ∧ (r = true ↔ ¬ S m) ∧
      GapInv L k c (fun x => S x ∨ x = m) b1 := by
  have hw := h.wf
  have hcur := h.cur
  have hpos := hw.pos
  have hwin : ((L ≤ b.current ∧ b.current < m + L) ∨ (b.current < L ∧ m < L)) ∧
      m ≤ b.current := by
    refine ⟨?_, by omega⟩
    by_cases h3 : L ≤ b.current
    · exact Or.inl ⟨h3, by omega⟩
    · exact Or.inr ⟨by omega, by omega⟩
  rw [Update_of_nowrap hw (by omega) m (by omega)]
  rw [if_neg (by omega), if_neg (by omega), if_neg (by omega), if_neg (by omega),
    if_pos hwin]
  by_cases hb : bitAt b (m % L) = true
  · have hS : S m := (h.filled m h1 h2).mp hb
    rw [if_pos (Or.inr hb)]
    refine ⟨_, false, rfl, ⟨fun hf => absurd hf (by decide), fun hn => absurd hS hn⟩,
      ⟨hw.len, hw.blen, hw.pos⟩, hcur, ?_⟩
    intro x hx1 hx2
    have := h.filled x hx1 hx2
    simp only [bitAt] at this ⊢
    rw [this]
    exact ⟨Or.inl, fun hx => hx.elim id (fun e => e ▸ hS)⟩
  · have hS : ¬ S m := fun hs => hb ((h.filled m h1 h2).mpr hs)
    rw [if_neg (by
      rintro (h3 | h3)
      · omega
      · exact hb h3)]
    refine ⟨_, true, rfl, ⟨fun _ => hS, fun _ => rfl⟩,
      ⟨hw.len, by simp [hw.blen], hw.pos⟩, hcur, ?_⟩
    intro x hx1 hx2
    simp only [bitAt]
    by_cases hxm : x = m
    · subst hxm
      rw [getD_set_self (by rw [hw.blen]; exact Nat.mod_lt _ hpos) true]
      exact ⟨fun _ => Or.inr rfl, fun _ => rfl⟩
    · have hne : m % L ≠ x % L := by
        by_cases hlt : x < m
        · exact mod_ne_of_lt_of_lt hlt (by omega)
        · exact fun e => mod_ne_of_lt_of_lt (x := m) (m := x) (by omega) (by omega) e.symm
      rw [getD_set_of_ne hne]
      have := h.filled x hx1 hx2
      simp only [bitAt] at this
      rw [this]
      exact ⟨Or.inl, fun hx => hx.elim id (fun e => absurd e hxm)⟩

theorem GapInv_run {L k c : Nat} (hkc : c < k + L) (hc : c + L < 2 ^ 64) (ms : List Nat) :
    ∀ (S : Nat → Prop) (b : Bits), GapInv L k c S b → (∀ m ∈ ms, k < m ∧ m < c) →
      ∃ bf rs, runUpdates b ms = some (bf, rs) ∧ bf.current = c ∧
        ∀ m, (S m → (ms.zip rs).count (m, true) = 0) ∧
          (¬ S m → m ∈ ms → (ms.zip rs).count (m, true) = 1) := by
  induction ms with
  | nil =>
    intro S b h _
    exact ⟨b, [], rfl, h.cur, fun m => ⟨fun _ => rfl, fun _ hm => by simp at hm⟩⟩
  | cons m0 ms ih =>
    intro S b h hms
    obtain ⟨h1, h2⟩ := hms m0 (List.mem_cons_self _ _)
    obtain ⟨b1, r, hu, hr, hG⟩ := GapInv_step h hkc hc m0 h1 h2
    obtain ⟨bf, rs, hrun, hcur, hcount⟩ :=
      ih _ b1 hG (fun x hx => hms x (List.mem_cons_of_mem _ hx))
    refine ⟨bf, r :: rs, by simp [runUpdates, hu, hrun], hcur, ?_⟩
    intro m
    rw [List.zip_cons_cons, List.count_cons]
    constructor
    · intro hS
      have hne : ((m0, r) == (m, true)) = false := by
        simp only [beq_eq_false_iff_ne, ne_eq, Prod.mk.injEq, not_and]
        intro e1 e2
        subst e1
        exact hr.mp e2 hS
      rw [hne, (hcount m).1 (Or.inl hS)]
      rfl
    · intro hS hm
      by_cases e : m = m0
      · subst e
        have hrt : r = true := hr.mpr hS
        subst hrt
        rw [(hcount m).1 (Or.inr rfl)]
        simp
      · have hne : ((m0, r) == (m, true)) = false := by
          simp only [beq_eq_false_iff_ne, ne_eq, Prod.mk.injEq, not_and]
          intro e1
          exact absurd e1.symm e
        have hmem : m ∈ ms := by
          rcases List.mem_cons.mp hm with h3 | h3
          · exact absurd h3 e
          · exact h3
        rw [hne, (hcount m).2 (fun hx => hx.elim hS e) hmem]
        rfl

/-- C16, as stated, fails: on the reachable window `nearMaxCounter` (length 16,
`current = k = 2^64 - 10`) the counter `c = 2^64 - 5` satisfies
`k + 1 < c < k + 16`, but `Update(c)` takes the far-jump case (`k + 16` wraps)
and clears slot 6, the slot of `k`, which is not the slot of `c` nor of any
`n` with `k < n < c`. -/
theorem ahead_clears_window_at_wraparound :
    (runUpdates (NewBits 16) [2 ^ 64 - 10]).map Prod.fst = some nearMaxCounter ∧
      nearMaxCounter.current + 1 < 2 ^ 64 - 5 ∧ 2 ^ 64 - 5 < nearMaxCounter.current + 16 ∧
      6 ≠ (2 ^ 64 - 5) % 16 ∧
      (∀ n, nearMaxCounter.current < n → n < 2 ^ 64 - 5 → n % 16 ≠ 6) ∧
      bitAt nearMaxCounter 6 = true ∧
      (Update nearMaxCounter (2 ^ 64 - 5)).map (fun p => (p.2, bitAt p.1 6)) =
        some (true, false) := by
  refine ⟨by decide, by decide, by decide, by decide, ?_, by decide, by decide⟩
  intro n h1 h2
  have h3 : nearMaxCounter.current = 2 ^ 64 - 10 := rfl
  rw [h3] at h1
  omega

/-- C16 (amended): on every reachable state with `current = k` and
`k + L < 2^64`, and for every counter `c` with `k + 1 < c < k + L`, `Update(c)`
returns `true`, sets `current` to `c`, sets slot `c mod L`, sets to false the
slots `n mod L` for `k < n < c`, leaves all other slots unchanged, and does not
change `firstSeen` or the three counters; and if moreover `c + L < 2^64`, then
in every sequence of calls that follows with counters `m`, `k < m < c`, each of
these counters is admitted exactly once and `current` stays equal to `c`. -/
theorem ahead_within_window {L : Nat} {b : Bits} (hL : 0 < L) (hr : Reachable L b)
    (hn : b.current + L < 2 ^ 64) (c : Nat) (hlo : b.current + 1 < c)
    (hhi : c < b.current + L) :
    ∃ b1, Update b c = some (b1, true) ∧ b1.current = c ∧ bitAt b1 (c % L) = true ∧
      (∀ n, b.current < n → n < c → bitAt b1 (n % L) = false) ∧
      (∀ j, j ≠ c % L → (∀ n, b.current < n → n < c → n % L ≠ j) →
        bitAt b1 j = bitAt b j) ∧
      b1.firstSeen = b.firstSeen ∧ b1.lostCounter = b.lostCounter ∧
      b1.dupeCounter = b.dupeCounter ∧ b1.outOfWindowCounter = b.outOfWindowCounter ∧
      (c + L < 2 ^ 64 → ∀ ms : List Nat, (∀ m ∈ ms, b.current < m ∧ m < c) →
        ∃ bf rs, runUpdates b1 ms = some (bf, rs) ∧ bf.current = c ∧
          ∀ m ∈ ms, (ms.zip rs).count (m, true) = 1) := by
  have hw := wf_of_reachable hL hr
  rw [Update_of_nowrap hw hn c (by omega)]
  rw [if_neg (by omega), if_pos ⟨by omega, hhi⟩]
  have hcl : (clearBits b.bits L (b.current + 1) (c - (b.current + 1))).length = L := by
    rw [length_clearBits, hw.blen]
  have hcmod : c % L < L := Nat.mod_lt _ hL
  have hset : bitAt { b with
      bits := (clearBits b.bits L (b.current + 1) (c - (b.current + 1))).set (c % L) true
      current := c } (c % L) = true := by
    simp only [bitAt]
    exact getD_set_self (by rw [hcl]; exact hcmod) true
  have hclear : ∀ n, b.current < n → n < c → bitAt { b with
      bits := (clearBits b.bits L (b.current + 1) (c - (b.current + 1))).set (c % L) true
      current := c } (n % L) = false := by
    intro n h1 h2
    simp only [bitAt]
    have hne : c % L ≠ n % L := mod_ne_of_lt_of_lt h2 (by omega)
    rw [getD_set_of_ne hne,
      getElem?_clearBits_of_mem L (n % L) _ _ _ (by rw [hw.blen]; exact Nat.mod_lt _ hL)
        ⟨n, by omega, by omega, rfl⟩]
    rfl
  refine ⟨_, rfl, rfl, hset, hclear, ?_, rfl, rfl, rfl, rfl, ?_⟩
  · intro j hj hfar
    simp only [bitAt]
    rw [getD_set_of_ne (fun h => hj h.symm), getElem?_clearBits_of_ne]
    intro m h1 h2
    exact hfar m (by omega) (by omega)
  · intro hc ms hms
    have hG : GapInv L b.current c (fun _ => False) { b with
        bits := (clearBits b.bits L (b.current + 1) (c - (b.current + 1))).set (c % L) true
        current := c } :=
      ⟨⟨hw.len, by simp [hcl], hL⟩, rfl, fun m h1 h2 => by
        rw [hclear m h1 h2]
        exact ⟨fun h => absurd h (by decide), fun h => h.elim⟩⟩
    obtain ⟨bf, rs, hrun, hcur, hcount⟩ := GapInv_run hhi hc ms _ _ hG hms
    exact ⟨bf, rs, hrun, hcur, fun m hm => (hcount m).2 (fun h => h) hm⟩

/-- C16 (amended) on the scenario S3: `L = 16`, `Update(1)`, then `Update(10)`,
after which `Update(7)` is admitted without moving `current`. -/
theorem ahead_within_window_witness :
    (0 < 16 ∧ Reachable 16 afterOne ∧ afterOne.current + 16 < 2 ^ 64 ∧
        afterOne.current + 1 < 10 ∧ 10 < afterOne.current + 16) ∧
      ∃ b1, Update afterOne 10 = some (b1, true) ∧ b1.current = 10 ∧
        bitAt b1 (10 % 16) = true ∧
        (∀ n, afterOne.current < n → n < 10 → bitAt b1 (n % 16) = false) ∧
        (∀ j, j ≠ 10 % 16 → (∀ n, afterOne.current < n → n < 10 → n % 16 ≠ j) →
          bitAt b1 j = bitAt afterOne j) ∧
        b1.firstSeen = afterOne.firstSeen ∧ b1.lostCounter = afterOne.lostCounter ∧
        b1.dupeCounter = afterOne.dupeCounter ∧
        b1.outOfWindowCounter = afterOne.outOfWindowCounter ∧
        (10 + 16 < 2 ^ 64 → ∀ ms : List Nat, (∀ m ∈ ms, afterOne.current < m ∧ m < 10) →
          ∃ bf rs, runUpdates b1 ms = some (bf, rs) ∧ bf.current = 10 ∧
            ∀ m ∈ ms, (ms.zip rs).count (m, true) = 1) :=
  ⟨⟨by decide, afterOne_reachable, by decide, by decide, by decide⟩,
    ahead_within_window (by decide) afterOne_reachable (by decide) 10 (by decide)
      (by decide)⟩

theorem getD_set_false_true {l : List Bool} {k j : Nat}
    (h : ((l.set k false)[j]?).getD false = true) : (l[j]?).getD false = true := by
  by_cases hk : k = j
  · subst hk
    by_cases hl : k < l.length
    · rw [getD_set_self hl false] at h
      exact absurd h (by decide)
    · have hnone : (l.set k false)[k]? = none :=
        List.getElem?_eq_none (by rw [List.length_set]; exact Nat.le_of_not_lt hl)
      rw [hnone] at h
      exact absurd h (by decide)
  · rw [getD_set_of_ne hk] at h
    exact h

theorem getD_clearBits_true (L j : Nat) (k : Nat) :
    ∀ (l : List Bool) (n : Nat), ((clearBits l L n k)[j]?).getD false = true →
      (l[j]?).getD false = true := by
  induction k with
  | zero => intro l n h; exact h
  | succ k ih =>
    intro l n h
    simp only [clearBits] at h
    exact getD_set_false_true (ih _ _ h)

theorem bitAt_NewBits (L j : Nat) : bitAt (NewBits L) j = false := by
  by_cases h : j < L
  · simp [bitAt, NewBits, List.getElem?_replicate, h]
  · simp [bitAt, NewBits, List.getElem?_replicate, h]

/-- One `Update` call keeps the converse of the invariant: a set bit inside the
window belongs to a counter admitted before or by this call. -/
theorem Update_preserves_converse {L : Nat} {A : Nat → Prop} {b b1 : Bits} {r : Bool}
    (hw : WF L b) (hn : b.current + L < 2 ^ 64)
    (hC : ∀ x, x ≤ b.current → b.current < x + L → bitAt b (x % L) = true → A x)
    (c : Nat) (hc : c + L < 2 ^ 64) (hu : Update b c = some (b1, r)) :
    ∀ x, x ≤ b1.current → b1.current < x + L → bitAt b1 (x % L) = true →
      A x ∨ (r = true ∧ x = c) := by
  have hpos := hw.pos
  have hblen := hw.blen
  rw [Update_of_nowrap hw hn c (by omega)] at hu
  intro x hx1 hx2 hx3
  by_cases c1 : c = b.current + 1
  · rw [if_pos c1] at hu
    cases hu
    by_cases hxc : x = c
    · exact Or.inr ⟨rfl, hxc⟩
    · left
      simp only at hx1 hx2
      simp only [bitAt] at hx3
      have hne : c % L ≠ x % L := mod_ne_of_lt_of_lt (by omega) hx2
      rw [getD_set_of_ne hne] at hx3
      exact hC x (by omega) (by omega) hx3
  rw [if_neg c1] at hu
  by_cases c2 : b.current < c ∧ c < b.current + L
  · rw [if_pos c2] at hu
    cases hu
    by_cases hxc : x = c
    · exact Or.inr ⟨rfl, hxc⟩
    · left
      simp only at hx1 hx2
      simp only [bitAt] at hx3
      have hne : c % L ≠ x % L := mod_ne_of_lt_of_lt (by omega) hx2
      rw [getD_set_of_ne hne] at hx3
      by_cases hxk : x ≤ b.current
      · exact hC x hxk (by omega) (getD_clearBits_true _ _ _ _ _ hx3)
      · rw [getElem?_clearBits_of_mem L (x % L) _ _ _
          (by rw [hblen]; exact Nat.mod_lt _ hpos) ⟨x, by omega, by omega, rfl⟩] at hx3
        exact absurd hx3 (by decide)
  rw [if_neg c2] at hu
  by_cases c3 : b.current + L ≤ c
  · rw [if_pos c3] at hu
    cases hu
    by_cases hxc : x = c
    · exact Or.inr ⟨rfl, hxc⟩
    · exfalso
      simp only at hx1 hx2
      simp only [bitAt] at hx3
      have hne : c % L ≠ x % L := mod_ne_of_lt_of_lt (by omega) hx2
      rw [getD_set_of_ne hne, getD_map_false] at hx3
      exact absurd hx3 (by decide)
  rw [if_neg c3] at hu
  by_cases c4 : c = 0 ∧ b.firstSeen = false ∧ b.current < L
  · rw [if_pos c4] at hu
    cases hu
    by_cases hxc : x = c
    · exact Or.inr ⟨rfl, hxc⟩
    · left
      simp only at hx1 hx2
      simp only [bitAt] at hx3
      have hne : c % L ≠ x % L := by
        rw [c4.1, Nat.zero_mod, Nat.mod_eq_of_lt (by omega)]
        omega
      rw [getD_set_of_ne hne] at hx3
      exact hC x hx1 hx2 hx3
  rw [if_neg c4] at hu
  by_cases c5 : ((L ≤ b.current ∧ b.current < c + L) ∨ (b.current < L ∧ c < L)) ∧ c ≤ b.current
  · rw [if_pos c5] at hu
    by_cases c5a : b.current = c ∨ bitAt b (c % L) = true
    · rw [if_pos c5a] at hu
      cases hu
      exact Or.inl (hC x hx1 hx2 hx3)
    · rw [if_neg c5a] at hu
      cases hu
      by_cases hxc : x = c
      · exact Or.inr ⟨rfl, hxc⟩
      · left
        simp only at hx1 hx2
        simp only [bitAt] at hx3
        have hne : c % L ≠ x % L := by
          by_cases hlt : x < c
          · exact mod_ne_of_lt_of_lt hlt (by omega)
          · exact fun h => mod_ne_of_lt_of_lt (x := c) (m := x) (by omega) (by omega) h.symm
        rw [getD_set_of_ne hne] at hx3
        exact hC x hx1 hx2 hx3
  · rw [if_neg c5] at hu
    cases hu
    exact Or.inl (hC x hx1 hx2 hx3)

/-- A run of `Update` calls below wraparound: afterwards a bit inside the window
is set exactly for the counters admitted before or during the run. -/
theorem runUpdates_truthful {L : Nat} (cs : List Nat) :
    ∀ (A : Nat → Prop) (b : Bits), Inv L A b →
      (∀ x, x ≤ b.current → b.current < x + L → bitAt b (x % L) = true → A x) →
      (∀ c ∈ cs, c + L < 2 ^ 64) →
      ∃ bf rs, runUpdates b cs = some (bf, rs) ∧
        ∀ x, x ≤ bf.current → bf.current < x + L →
          (bitAt bf (x % L) = true ↔ (A x ∨ (x, true) ∈ cs.zip rs)) := by
  induction cs with
  | nil =>
    intro A b hI hC _
    refine ⟨b, [], rfl, fun x h1 h2 => ⟨fun h => Or.inl (hC x h1 h2 h), ?_⟩⟩
    rintro (h | h)
    · refine hI.adm_bit x h ?_
      by_cases h3 : L ≤ b.current
      · exact Or.inr ⟨h3, h2⟩
      · exact Or.inl ⟨by omega, by omega⟩
    · simp at h
  | cons c cs ih =>
    intro A b hI hC hcs
    have hc := hcs c (List.mem_cons_self _ _)
    obtain ⟨b1, r, hu, -, hI1⟩ := Update_preserves_Inv hI c hc
    have hC1 := Update_preserves_converse hI.wf hI.nowrap hC c hc hu
    obtain ⟨bf, rs, hrun, hiff⟩ :=
      ih _ b1 hI1 hC1 (fun x hx => hcs x (List.mem_cons_of_mem _ hx))
    refine ⟨bf, r :: rs, by simp [runUpdates, hu, hrun], ?_⟩
    intro x h1 h2
    rw [hiff x h1 h2, List.zip_cons_cons, List.mem_cons]
    constructor
    · rintro ((h | ⟨hr, hx⟩) | h)
      · exact Or.inl h
      · exact Or.inr (Or.inl (by rw [hr, hx]))
      · exact Or.inr (Or.inr h)
    · rintro (h | h | h)
      · exact Or.inl (Or.inl h)
      · have e1 : x = c := congrArg Prod.fst h
        have e2 : true = r := congrArg Prod.snd h
        exact Or.inl (Or.inr ⟨e2.symm, e1⟩)
      · exact Or.inr h

/-- C19, as stated, fails: on the window of length 16 after `Update(90)`,
`Update(2^64 - 1)`, `Update(100)` (all admitted; the last one by the far-jump
test on the wrapped `current + length`), `current` is 100 and the counter 90
lies in `(current - 16, current]`, its earlier `Update(90)` returned `true`,
but `bits[90 mod 16]` is false. -/
theorem admitted_bit_lost_at_wraparound :
    (runUpdates (NewBits 16) [90, 2 ^ 64 - 1, 100]).map
        (fun p => (p.2, p.1.current, bitAt p.1 (90 % 16))) =
        some ([true, true, true], 100, false) ∧
      100 - 16 < 90 ∧ 90 ≤ 100 ∧
      ((90, true) ∈ List.zip [90, 2 ^ 64 - 1, 100] [true, true, true]) := by
  decide

/-- C19 (amended): for every window length `L ≥ 1` and every sequence of `Update`
calls on `NewBits L` whose counters all satisfy `c + L < 2^64`, the calls all
return, and in the state reached, for every counter `c` with
`current - L < c ≤ current`, `bits[c mod L]` is true if and only if some
`Update(c)` of the sequence returned `true`. -/
theorem bitmap_truthful_below_wraparound (L : Nat) (hL : 0 < L) (cs : List Nat)
    (hcs : ∀ c ∈ cs, c + L < 2 ^ 64) :
    ∃ bf rs, runUpdates (NewBits L) cs = some (bf, rs) ∧
      ∀ c, c ≤ bf.current → bf.current < c + L →
        (bitAt bf (c % L) = true ↔ (c, true) ∈ cs.zip rs) := by
  cases cs with
  | nil =>
    refine ⟨NewBits L, [], rfl, fun c _ _ => ?_⟩
    rw [bitAt_NewBits]
    simp
  | cons c0 cs =>
    have h64 : L < 2 ^ 64 := by
      have := hcs c0 (List.mem_cons_self _ _)
      omega
    obtain ⟨bf, rs, hrun, hiff⟩ :=
      runUpdates_truthful (c0 :: cs) _ _ (NewBits_inv hL h64)
        (fun x _ _ h => by rw [bitAt_NewBits] at h; exact absurd h (by decide)) hcs
    refine ⟨bf, rs, hrun, fun c h1 h2 => ?_⟩
    rw [hiff c h1 h2]
    simp

/-- C19 (amended) on the scenario S2 with a gap: `L = 16` and the calls 5, 3, 5,
4, 0, 20. -/
theorem bitmap_truthful_below_wraparound_witness :
    (0 < 16 ∧ ∀ c ∈ [5, 3, 5, 4, 0, 20], c + 16 < 2 ^ 64) ∧
      ∃ bf rs, runUpdates (NewBits 16) [5, 3, 5, 4, 0, 20] = some (bf, rs) ∧
        ∀ c, c ≤ bf.current → bf.current < c + 16 →
          (bitAt bf (c % 16) = true ↔ (c, true) ∈ List.zip [5, 3, 5, 4, 0, 20] rs) :=
  ⟨⟨by decide, by decide⟩,
    bitmap_truthful_below_wraparound 16 (by decide) [5, 3, 5, 4, 0, 20] (by decide)⟩

/-! ## outside.go: further properties -/

/-- The function `newPacket` with its reads resolved: it never fails at run time,
and its result is one of the four errors or the tuple of the specification. -/
theorem newPacket_eq (data : List Byte) (incoming : Bool) (fp : FirewallPacket) :
    newPacket data incoming fp =
      if data.length < 20 then some (fp, some (.tooShort 20))
      else if versionNibble data ≠ 4 then some (fp, some (.notIPv4 (versionNibble data)))
      else if IHL data * 4 < 20 then some (fp, some (.invalidHeaderLength (IHL data * 4)))
      else if data.length < minLenOf data then
        some ({ fp with Fragment := isFragment data, Protocol := byteAt data 9 },
          some (.tooShortForHeader (minLenOf data) (IHL data * 4)))
      else some (expectedTuple data incoming, none) := by
  unfold newPacket
  simp only [ipv4HeaderLen, minFwPacketLen]
  by_cases h20 : data.length < 20
  · rw [if_pos h20, if_pos h20]
  rw [if_neg h20, if_neg h20]
  obtain ⟨d0, hd0, hv0⟩ := getElem?_eq_some_byteAt data 0 (by omega)
  obtain ⟨d9, hd9, hv9⟩ := getElem?_eq_some_byteAt data 9 (by omega)
  rw [hd0, hd9, uint16At_of_lt data 6 (by omega), uint32At_of_lt data 12 (by omega),
    uint32At_of_lt data 16 (by omega)]
  simp only [Option.some_bind, high_nibble_eq, low_nibble_shift_eq, low13_eq, hv0, hv9,
    Nat.reduceAdd]
  have eV : byteAt data 0 / 16 = versionNibble data := rfl
  have eI : byteAt data 0 % 16 = IHL data := rfl
  have eF : decide ((byteAt data 6 * 256 + byteAt data 7) % 8192 ≠ 0) = isFragment data := rfl
  simp only [eV, eI, eF]
  have eM : (if isFragment data = false ∧ byteAt data 9 ≠ fwProtoICMP then IHL data * 4 + 4
      else IHL data * 4) = minLenOf data := rfl
  simp only [eM]
  by_cases hver : versionNibble data ≠ 4
  · rw [if_pos hver, if_pos hver]
  rw [if_neg hver, if_neg hver]
  by_cases hihl : IHL data * 4 < 20
  · rw [if_pos hihl, if_pos hihl]
  rw [if_neg hihl, if_neg hihl]
  by_cases hlen : data.length < minLenOf data
  · rw [if_pos hlen, if_pos hlen]
  rw [if_neg hlen, if_neg hlen]
  by_cases hp : isFragment data = true ∨ byteAt data 9 = fwProtoICMP
  · rw [if_pos hp]
    simp only [Option.some_bind]
    cases incoming with
    | true => simp [expectedTuple, portsOf, hp, word32, word16]
    | false => simp [expectedTuple, portsOf, hp, word32, word16]
  · rw [if_neg hp]
    have hmin : minLenOf data = IHL data * 4 + 4 := by
      unfold minLenOf
      rw [if_pos]
      refine ⟨?_, fun h => hp (Or.inr h)⟩
      cases hf : isFragment data with
      | false => rfl
      | true => exact absurd (Or.inl hf) hp
    rw [hmin] at hlen
    rw [uint16At_of_lt data (IHL data * 4) (by omega),
      uint16At_of_lt data (IHL data * 4 + 2) (by omega)]
    simp only [Option.some_bind]
    cases incoming with
    | true => simp [expectedTuple, portsOf, hp, word32, word16]
    | false => simp [expectedTuple, portsOf, hp, word32, word16]

/-- C11: whenever `newPacket` returns nil, `Protocol` is `data[9]`; `Fragment` is
true iff the low 13 bits of the big-endian word `data[6:8]` are non-zero; for
`incoming = true` `RemoteIP` and `LocalIP` are the big-endian words `data[12:16]`
and `data[16:20]`, for `incoming = false` they are swapped; both ports are 0
when `Fragment` is true or `Protocol` is ICMP, and otherwise (the buffer then
holds `IHL * 4 + 4` bytes) `RemotePort` and `LocalPort` are the big-endian words
`data[ihl:ihl+2]` and `data[ihl+2:ihl+4]` for `incoming = true`, and swapped for
`incoming = false`. -/
theorem newPacket_tuple_on_success (data : List Byte) (incoming : Bool)
    (fp fp1 : FirewallPacket) (h : newPacket data incoming fp = some (fp1, none)) :
    fp1.Protocol = byteAt data 9 ∧
      (fp1.Fragment = true ↔ fragmentOffset data ≠ 0) ∧
      (incoming = true → fp1.RemoteIP = word32 data 12 ∧ fp1.LocalIP = word32 data 16) ∧
      (incoming = false → fp1.LocalIP = word32 data 12 ∧ fp1.RemoteIP = word32 data 16) ∧
      ((fp1.Fragment = true ∨ fp1.Protocol = fwProtoICMP) →
        fp1.RemotePort = 0 ∧ fp1.LocalPort = 0) ∧
      (¬ (fp1.Fragment = true ∨ fp1.Protocol = fwProtoICMP) →
        IHL data * 4 + 4 ≤ data.length ∧
        (incoming = true → fp1.RemotePort = word16 data (IHL data * 4) ∧
          fp1.LocalPort = word16 data (IHL data * 4 + 2)) ∧
        (incoming = false → fp1.LocalPort = word16 data (IHL data * 4) ∧
          fp1.RemotePort = word16 data (IHL data * 4 + 2))) := by
  rw [newPacket_eq] at h
  have hne : ∀ (q : FirewallPacket) (e : PacketError),
      ¬ ((some (q, some e) : Option (FirewallPacket × Option PacketError)) =
        some (fp1, none)) := by
    intro q e hq
    cases hq
  by_cases h20 : data.length < 20
  · rw [if_pos h20] at h; exact absurd h (hne _ _)
  rw [if_neg h20] at h
  by_cases hver : versionNibble data ≠ 4
  · rw [if_pos hver] at h; exact absurd h (hne _ _)
  rw [if_neg hver] at h
  by_cases hihl : IHL data * 4 < 20
  · rw [if_pos hihl] at h; exact absurd h (hne _ _)
  rw [if_neg hihl] at h
  by_cases hlen : data.length < minLenOf data
  · rw [if_pos hlen] at h; exact absurd h (hne _ _)
  rw [if_neg hlen] at h
  have hfp : fp1 = expectedTuple data incoming := by
    cases h; rfl
  have hfrag : (expectedTuple data incoming).Fragment = isFragment data := by
    cases incoming <;> rfl
  have hproto : (expectedTuple data incoming).Protocol = byteAt data 9 := by
    cases incoming <;> rfl
  subst hfp
  rw [hfrag, hproto]
  refine ⟨rfl, by simp [isFragment], ?_, ?_, ?_, ?_⟩
  · intro hi; subst hi; exact ⟨rfl, rfl⟩
  · intro hi; subst hi; exact ⟨rfl, rfl⟩
  · intro hp
    cases incoming <;> simp [expectedTuple, portsOf, hp]
  · intro hp
    have hmin : minLenOf data = IHL data * 4 + 4 := by
      unfold minLenOf
      rw [if_pos]
      refine ⟨?_, fun h => hp (Or.inr h)⟩
      cases hf : isFragment data with
      | false => rfl
      | true => exact absurd (Or.inl hf) hp
    rw [hmin] at hlen
    refine ⟨by omega, ?_, ?_⟩
    · intro hi; subst hi; simp [expectedTuple, portsOf, hp]
    · intro hi; subst hi; simp [expectedTuple, portsOf, hp]

/-- C11 on a 28-byte UDP packet from 10.0.0.1:53 to 10.0.0.2:4242, inbound. -/
theorem newPacket_tuple_on_success_witness :
    newPacket udpPacket true emptyFirewallPacket =
        some (⟨167772162, 167772161, 4242, 53, 17, false⟩, none) ∧
      ((17 : Nat) = byteAt udpPacket 9 ∧
        (false = true ↔ fragmentOffset udpPacket ≠ 0) ∧
        (true = true → 167772161 = word32 udpPacket 12 ∧ 167772162 = word32 udpPacket 16) ∧
        (true = false → 167772162 = word32 udpPacket 12 ∧ 167772161 = word32 udpPacket 16) ∧
        ((false = true ∨ 17 = fwProtoICMP) → (53 : Nat) = 0 ∧ (4242 : Nat) = 0) ∧
        (¬ (false = true ∨ 17 = fwProtoICMP) →
          IHL udpPacket * 4 + 4 ≤ udpPacket.length ∧
          (true = true → 53 = word16 udpPacket (IHL udpPacket * 4) ∧
            4242 = word16 udpPacket (IHL udpPacket * 4 + 2)) ∧
          (true = false → 4242 = word16 udpPacket (IHL udpPacket * 4) ∧
            53 = word16 udpPacket (IHL udpPacket * 4 + 2)))) :=
  ⟨by decide,
    newPacket_tuple_on_success udpPacket true emptyFirewallPacket
      ⟨167772162, 167772161, 4242, 53, 17, false⟩ (by decide)⟩

/-- C20: for every buffer (of any length, the empty one included) and both
directions `newPacket` returns: none of its reads `data[0]`, `data[6:8]`,
`data[9]`, `data[12:16]`, `data[16:20]`, `data[ihl:ihl+2]`, `data[ihl+2:ihl+4]`
is out of range; a buffer of fewer than 20 bytes gets the error of the first
check and leaves the firewall packet as it was. -/
theorem newPacket_never_fails (data : List Byte) (incoming : Bool) (fp : FirewallPacket) :
    (∃ fp1 r, newPacket data incoming fp = some (fp1, r)) ∧
      (data.length < 20 → newPacket data incoming fp = some (fp, some (.tooShort 20))) := by
  rw [newPacket_eq]
  constructor
  · by_cases h20 : data.length < 20
    · rw [if_pos h20]; exact ⟨_, _, rfl⟩
    rw [if_neg h20]
    by_cases hver : versionNibble data ≠ 4
    · rw [if_pos hver]; exact ⟨_, _, rfl⟩
    rw [if_neg hver]
    by_cases hihl : IHL data * 4 < 20
    · rw [if_pos hihl]; exact ⟨_, _, rfl⟩
    rw [if_neg hihl]
    by_cases hlen : data.length < minLenOf data
    · rw [if_pos hlen]; exact ⟨_, _, rfl⟩
    · rw [if_neg hlen]; exact ⟨_, _, rfl⟩
  · intro h20
    rw [if_pos h20]

/-- C20 on the empty buffer. -/
theorem newPacket_never_fails_witness :
    (([] : List Byte).length < 20) ∧
      newPacket [] true emptyFirewallPacket =
        some (emptyFirewallPacket, some (.tooShort 20)) :=
  ⟨by decide, (newPacket_never_fails [] true emptyFirewallPacket).2 (by decide)⟩

/-- C18, as stated, fails: for a session whose remote is not set, which differs
from every datagram source, and a source that the allow list permits,
`handleHostRoaming` does not roam but fails at run time: it dereferences the
nil `hostinfo.remote` (`hostinfo.remote.IP`, `*hostinfo.remote`). -/
theorem roaming_fails_when_remote_unset :
    sessionNoRemote.remote = none ∧ sessionNoRemote.remote ≠ some otherAddr ∧
      envAeadFails.Allow otherAddr = true ∧
      handleHostRoaming envAeadFails sessionNoRemote otherAddr = none := by
  decide

/-- C18 (amended): `handleHostRoaming` leaves the session unchanged when the
source `addr` equals the current remote or the allow list denies `addr`; and
for a session whose remote `old` is set and differs from `addr`, with `addr`
permitted by the allow list, the session is unchanged if `addr` equals
`lastRoamRemote` and less than the suppression interval has elapsed since
`lastRoam`, and otherwise `lastRoamRemote` becomes `old`, `lastRoam` the current
time and `remote` becomes `addr`. -/
theorem handleHostRoaming_suppresses_flap (env : Env) (hostinfo : HostInfo)
    (addr : udpAddr) :
    ((hostinfo.remote = some addr ∨ env.Allow addr = false) →
        handleHostRoaming env hostinfo addr = some (hostinfo, [])) ∧
      (∀ old, hostinfo.remote = some old → old ≠ addr → env.Allow addr = true →
        (((∃ t, hostinfo.lastRoam = some t ∧
              env.now - t < env.RoamingSupressSeconds * timeSecond) ∧
            hostinfo.lastRoamRemote = some addr) →
          handleHostRoaming env hostinfo addr = some (hostinfo, [])) ∧
        (¬ ((∃ t, hostinfo.lastRoam = some t ∧
              env.now - t < env.RoamingSupressSeconds * timeSecond) ∧
            hostinfo.lastRoamRemote = some addr) →
          ∃ eff, handleHostRoaming env hostinfo addr =
            some ({ hostinfo with
              lastRoam := some env.now, lastRoamRemote := some old, remote := some addr },
              eff))) := by
  constructor
  · rintro (h | h)
    · unfold handleHostRoaming
      simp [hostDidRoam, h]
    · unfold handleHostRoaming
      by_cases hd : hostDidRoam hostinfo.remote addr = true
      · simp [hd, h]
      · simp [hd]
  · intro old hrem hne hallow
    have hd : hostDidRoam hostinfo.remote addr = true := by
      simp [hostDidRoam, hrem, hne]
    constructor
    · rintro ⟨⟨t, ht, hlt⟩, hlast⟩
      unfold handleHostRoaming
      simp [hd, hallow, ht, hlt, hlast, udpAddr.Equals, hrem]
    · intro hno
      have hd1 : hostDidRoam (some old) addr = true := by
        simp [hostDidRoam, hne]
      unfold handleHostRoaming
      cases ht : hostinfo.lastRoam with
      | none =>
        simp only [hrem, hd1, if_true, hallow, Bool.true_eq_false, if_false,
          Option.some_bind]
        exact ⟨_, rfl⟩
      | some t =>
        have hcond : ¬ (addr.Equals hostinfo.lastRoamRemote = true ∧
            env.now - t < env.RoamingSupressSeconds * timeSecond) := by
          rintro ⟨h1, h2⟩
          exact hno ⟨⟨t, ht, h2⟩, by simpa [udpAddr.Equals] using h1⟩
        simp only [hrem, hd1, if_true, hallow, Bool.true_eq_false, if_false, hcond,
          Option.some_bind]
        exact ⟨_, rfl⟩

/-- C18 (amended) on the scenario S7: the session roamed from `firstAddr` to
`otherAddr` at the instant 1000 s; a packet from `firstAddr` 10 s later leaves
the remote at `otherAddr`, and a packet from `firstAddr` 40 s later sets the
remote back to `firstAddr`. -/
theorem handleHostRoaming_suppresses_flap_witness :
    (roamedSession.remote = some otherAddr ∧ otherAddr ≠ firstAddr ∧
        (envAt 1010000000000).Allow firstAddr = true ∧
        (envAt 1010000000000).RoamingSupressSeconds = 30) ∧
      handleHostRoaming (envAt 1010000000000) roamedSession firstAddr =
        some (roamedSession, []) ∧
      ∃ eff, handleHostRoaming (envAt 1040000000000) roamedSession firstAddr =
        some ({ roamedSession with
          lastRoam := some 1040000000000
          lastRoamRemote := some otherAddr
          remote := some firstAddr }, eff) :=
  ⟨⟨rfl, by decide, rfl, rfl⟩,
    ((handleHostRoaming_suppresses_flap (envAt 1010000000000) roamedSession firstAddr).2
      otherAddr rfl (by decide) rfl).1 ⟨⟨1000000000000, rfl, by decide⟩, rfl⟩,
    ((handleHostRoaming_suppresses_flap (envAt 1040000000000) roamedSession firstAddr).2
      otherAddr rfl (by decide) rfl).2 (by
        rintro ⟨⟨t, ht, hlt⟩, -⟩
        have e : t = 1000000000000 := by
          have h1 : roamedSession.lastRoam = some 1000000000000 := rfl
          rw [h1] at ht
          exact (Option.some.inj ht).symm
        subst e
        exact absurd hlt (by decide))⟩

end Nebula
